import Mathlib

/-!
Shallow embedding of shark's merger-tree builder (`src/tree_builder.cpp`).

Halos, subhalos and merger trees are kept in identity-keyed arenas
(association lists keyed by the C++ `id` fields); the raw pointers of the
C++ code become arena keys, so pointer equality is key equality.  The
mutable pass functions of `TreeBuilder` / `HaloBasedTreeBuilder` become
state transformers; code that can throw returns `Except Err`, and code
whose C++ behaviour is undefined (null-pointer dereference, out-of-bounds
indexing, non-terminating loops) returns `Option`, with `none` standing
for the undefined/diverging execution.  `double` fields are modelled as
`ℚ`: the passes only copy, add, subtract, multiply and compare masses, and
the clamp/compare structure under verification does not depend on IEEE
rounding.
-/

namespace Shark

abbrev HaloId := Nat
abbrev SubhaloId := Nat
abbrev TreeId := Nat

/-- Three-component vector (position, velocity, angular momentum). -/
structure Vec3 where
  x : ℚ := 0
  y : ℚ := 0
  z : ℚ := 0
deriving DecidableEq

/-- Subhalo type tag, `Subhalo::subhalo_type` in the source. -/
inductive SubhaloType where
  | CENTRAL
  | SATELLITE
deriving DecidableEq

/-- Subhalo record (fields used by `tree_builder.cpp`; the defining header
is not under `src/`, the field list follows the spec's data model). -/
structure Subhalo where
  snapshot : Int := 0
  Mvir : ℚ := 0
  L : Vec3 := {}
  concentration : ℚ := 0
  lambda : ℚ := 0
  Vvir : ℚ := 0
  position : Vec3 := {}
  velocity : Vec3 := {}
  subhalo_type : SubhaloType := .SATELLITE
  has_descendant : Bool := false
  descendant_halo_id : HaloId := 0
  descendant_id : SubhaloId := 0
  descendant : Option SubhaloId := none
  ascendants : List SubhaloId := []
  main_progenitor : Bool := false
  host_halo : HaloId := 0
  last_snapshot_identified : Int := 0
  accreted_mass : ℚ := 0
deriving DecidableEq

/-- Halo record (fields used by `tree_builder.cpp`). -/
structure Halo where
  snapshot : Int := 0
  Mvir : ℚ := 0
  position : Vec3 := {}
  velocity : Vec3 := {}
  concentration : ℚ := 0
  lambda : ℚ := 0
  Vvir : ℚ := 0
  ascendants : List HaloId := []
  descendant : Option HaloId := none
  central_subhalo : Option SubhaloId := none
  satellite_subhalos : List SubhaloId := []
  merger_tree : Option TreeId := none
deriving DecidableEq

/-- Association-list lookup (first matching key), modelling `std::map::find`. -/
def lookupA {κ α : Type} [DecidableEq κ] : List (κ × α) → κ → Option α
  | [], _ => none
  | (k', v) :: l, k => if k = k' then some v else lookupA l k

/-- Association-list insert-or-assign (replaces the first matching entry in
place, appends otherwise), modelling `std::map::operator[] =`. -/
def upsert {κ α : Type} [DecidableEq κ] : List (κ × α) → κ → α → List (κ × α)
  | [], k, v => [(k, v)]
  | (k', v') :: l, k, v => if k = k' then (k, v) :: l else (k', v') :: upsert l k v

/-- The whole mutable object graph of the tree builder: halo arena, subhalo
arena and, per merger tree, the snapshot-indexed halo buckets
(`MergerTree::halos : std::map<int, std::vector<HaloPtr>>`). -/
structure State where
  halos : List (HaloId × Halo) := []
  subhalos : List (SubhaloId × Subhalo) := []
  trees : List (TreeId × List (Int × List HaloId)) := []
deriving DecidableEq

/-- Dereference a halo pointer; absent keys give a default record (the code
never creates them, they only arise from ill-formed inputs). -/
def State.halo (st : State) (i : HaloId) : Halo := (lookupA st.halos i).getD {}

/-- Dereference a subhalo pointer. -/
def State.sub (st : State) (i : SubhaloId) : Subhalo := (lookupA st.subhalos i).getD {}

/-- The snapshot-to-halos map of one merger tree. -/
def State.treeHalos (st : State) (t : TreeId) : List (Int × List HaloId) :=
  (lookupA st.trees t).getD []

/-- One snapshot bucket of one merger tree, `tree->halos[snapshot]`. -/
def State.bucket (st : State) (t : TreeId) (s : Int) : List HaloId :=
  (lookupA (st.treeHalos t) s).getD []

def State.setHalo (st : State) (i : HaloId) (h : Halo) : State :=
  { st with halos := upsert st.halos i h }

def State.modifyHalo (st : State) (i : HaloId) (f : Halo → Halo) : State :=
  st.setHalo i (f (st.halo i))

def State.setSub (st : State) (i : SubhaloId) (s : Subhalo) : State :=
  { st with subhalos := upsert st.subhalos i s }

def State.modifySub (st : State) (i : SubhaloId) (f : Subhalo → Subhalo) : State :=
  st.setSub i (f (st.sub i))

/-- Modelled from the spec: `MergerTree::add_halo` (declared in a header not
under `src/`) appends a halo to the tree's bucket at the halo's snapshot
("grows by accepting halos appended by the Linker"). -/
def State.add_halo (st : State) (t : TreeId) (i : HaloId) : State :=
  let m := st.treeHalos t
  let s := (st.halo i).snapshot
  let b := (lookupA m s).getD []
  { st with trees := upsert st.trees t (upsert m s (b ++ [i])) }

/-- Error values thrown by the tree builder.  Messages are abstracted to
tags; `subhalo_not_found` carries the unresolved descendant subhalo id as
in `subhalo_not_found(os.str(), subhalo->descendant_id)`. -/
inductive ErrMsg where
  | subhaloAlreadyHasDescendant
  | haloAlreadyHasDescendant
  | descendantHasNoMergerTree
  | notPartOfTree
  | notDirectDescendant
  | moreThanOneCentral
  | noCentral
  | noSatelliteSubhalos
  | noHaloAtRootSnapshot
deriving DecidableEq

inductive Err where
  | invalid_data : ErrMsg → Err
  | invalid_argument : ErrMsg → Err
  | subhalo_not_found : SubhaloId → Err
deriving DecidableEq

instance {ε α : Type} [DecidableEq ε] [DecidableEq α] : DecidableEq (Except ε α) := fun x y =>
  match x, y with
  | .ok a, .ok b =>
      if h : a = b then .isTrue (by rw [h]) else .isFalse (by intro hh; cases hh; exact h rfl)
  | .error a, .error b =>
      if h : a = b then .isTrue (by rw [h]) else .isFalse (by intro hh; cases hh; exact h rfl)
  | .ok _, .error _ => .isFalse (by intro h; cases h)
  | .error _, .ok _ => .isFalse (by intro h; cases h)

/-- Execution parameters (from the spec's execution-parameters collaborator:
the output-snapshot list whose first entry seeds the roots, and the three
policy switches; the defining header is not under `src/`). -/
structure ExecutionParameters where
  output_snapshots : List Int := []
  skip_missing_descendants : Bool := false
  warn_on_missing_descendants : Bool := false
  ensure_mass_growth : Bool := false
deriving DecidableEq

/-- Simulation parameters: the `min_snapshot`/`max_snapshot` bounds used by
the snapshot-walking loops. -/
structure SimulationParameters where
  min_snapshot : Int := 0
  max_snapshot : Int := 0
deriving DecidableEq

/-- Modelled from the spec: `Halo::all_subhalos` (header not under `src/`)
returns the hosted subhalos, the central one (when assigned) followed by
the satellite list. -/
def State.all_subhalos (st : State) (h : HaloId) : List SubhaloId :=
  match (st.halo h).central_subhalo with
  | some c => c :: (st.halo h).satellite_subhalos
  | none => (st.halo h).satellite_subhalos

/-- Modelled from the spec: `Halo::remove_subhalo` (header not under `src/`)
revokes the subhalo's central/satellite membership in its host halo. -/
def State.remove_subhalo (st : State) (h : HaloId) (sh : SubhaloId) : State :=
  st.modifyHalo h (fun H =>
    { H with
      central_subhalo := if H.central_subhalo = some sh then none else H.central_subhalo,
      satellite_subhalos := H.satellite_subhalos.erase sh })

/-- Modelled from the spec: insertion into a halo's ascendant set is
idempotent by identity and reports whether the element was new, as
`std::get<1>(desc_halo->ascendants.insert(parent_halo))`. -/
def insertUnique (l : List HaloId) (i : HaloId) : List HaloId × Bool :=
  if i ∈ l then (l, false) else (l ++ [i], true)

/-- Tail of `TreeBuilder::link` after the halo-level ascendant insertion and
the duplicate-descendant check: assigns the parent halo's descendant,
requires the descendant halo to have a merger tree, propagates that tree to
the parent and, when the ascendant insertion was new, adds the parent halo
to the tree. -/
def linkTail (st : State) (parent_halo desc_halo : HaloId) (halos_linked : Bool) :
    Except Err State :=
  let st := st.modifyHalo parent_halo (fun H => { H with descendant := some desc_halo })
  match (st.halo desc_halo).merger_tree with
  | none => .error (.invalid_data .descendantHasNoMergerTree)
  | some t =>
      let st := st.modifyHalo parent_halo (fun H => { H with merger_tree := some t })
      if halos_linked then .ok (st.add_halo t parent_halo) else .ok st

/-- The state produced by a successful `link` run, written out explicitly:
subhalo-level ascendant push and descendant assignment, halo-level
ascendant-set insertion, descendant assignment, tree propagation, and the
bucket append when the insertion was new. -/
def linkResult (st0 : State) (ps ds : SubhaloId) (ph dh : HaloId) (t : TreeId) : State :=
  let stA := (st0.modifySub ds (fun s =>
      { s with ascendants := s.ascendants ++ [ps] })).modifySub ps
      (fun s => { s with descendant := some ds })
  let ins := insertUnique (st0.halo dh).ascendants ph
  let stB := stA.modifyHalo dh (fun H => { H with ascendants := ins.1 })
  let stC := stB.modifyHalo ph (fun H => { H with descendant := some dh })
  let stD := stC.modifyHalo ph (fun H => { H with merger_tree := some t })
  if ins.2 then stD.add_halo t ph else stD

/-- Halo-level middle part of `TreeBuilder::link` (lines 159-171): insert
the parent halo into the descendant halo's ascendant set, fail if the
parent halo already has a descendant with a different identity, then run
the tail. -/
def linkMid (st : State) (parent_halo desc_halo : HaloId) : Except Err State :=
  let ins := insertUnique (st.halo desc_halo).ascendants parent_halo
  let st3 := st.modifyHalo desc_halo (fun H => { H with ascendants := ins.1 })
  match (st3.halo parent_halo).descendant with
  | some d =>
      if d ≠ desc_halo then .error (.invalid_data .haloAlreadyHasDescendant)
      else linkTail st3 parent_halo desc_halo ins.2
  | none => linkTail st3 parent_halo desc_halo ins.2

/-- `TreeBuilder::link`, `tree_builder.cpp` lines 141-184, in source order:
push the parent subhalo onto the descendant subhalo's ascendants; fail if
the parent subhalo already has a descendant; set it; insert the parent halo
into the descendant halo's ascendant set; fail if the parent halo already
has a descendant with a different identity; fail if the descendant halo has
no merger tree; link the parent halo to the tree, appending it to the
tree's bucket only when the halo-level insertion was new. -/
def link (st0 : State) (parent_shalo desc_subhalo : SubhaloId)
    (parent_halo desc_halo : HaloId) : Except Err State :=
  let st1 := st0.modifySub desc_subhalo
    (fun s => { s with ascendants := s.ascendants ++ [parent_shalo] })
  if (st1.sub parent_shalo).descendant.isSome then
    .error (.invalid_data .subhaloAlreadyHasDescendant)
  else
    let st2 := st1.modifySub parent_shalo (fun s => { s with descendant := some desc_subhalo })
    linkMid st2 parent_halo desc_halo

/-- One bucket of `TreeBuilder::ensure_trees_are_self_contained`: fail with
`invalid_data` on the first halo whose tree reference differs from the tree
being iterated. -/
def checkBucketContained (st : State) (t : TreeId) : List HaloId → Except Err Unit
  | [] => .ok ()
  | h :: l =>
      if (st.halo h).merger_tree ≠ some t then .error (.invalid_data .notPartOfTree)
      else checkBucketContained st t l

def checkTreeContained (st : State) (t : TreeId) : List (Int × List HaloId) → Except Err Unit
  | [] => .ok ()
  | q :: m =>
      match checkBucketContained st t q.2 with
      | .error e => .error e
      | .ok _ => checkTreeContained st t m

/-- `TreeBuilder::ensure_trees_are_self_contained`, lines 57-74. -/
def ensure_trees_are_self_contained (st : State) : List TreeId → Except Err Unit
  | [] => .ok ()
  | t :: ts =>
      match checkTreeContained st t (st.treeHalos t) with
      | .error e => .error e
      | .ok _ => ensure_trees_are_self_contained st ts

/-- Snapshots visited by a C++ loop `for (int s = a; s >= b; s--)`. -/
def snapshotsDesc (a b : Int) : List Int :=
  (List.range (a - b + 1).toNat).map (fun k => a - k)

/-- Snapshots visited by a C++ loop `for (int s = a; s < b; s++)`. -/
def snapRange (s : Int) : Nat → List Int
  | 0 => []
  | n + 1 => s :: snapRange (s + 1) n

/-- Snapshots visited by the check loop of `define_central_subhalos`,
`for (int snapshot = min_snapshot; snapshot >= max_snapshot; snapshot++)`
(line 293): when `min_snapshot < max_snapshot` the condition is false at
entry and the loop body never runs; otherwise the condition stays true
while `snapshot` increases, so the loop never terminates (`none`). -/
def ascendingGeLoopSnapshots (minS maxS : Int) : Option (List Int) :=
  if minS ≥ maxS then none else some []

/-- `TreeBuilder::remove_satellite`, lines 424-436: erase the subhalo from
the halo's satellite list, throwing if it is not there. -/
def remove_satellite (st : State) (h : HaloId) (s : SubhaloId) : Except Err State :=
  if s ∈ (st.halo h).satellite_subhalos then
    .ok (st.modifyHalo h (fun H =>
      { H with satellite_subhalos := H.satellite_subhalos.erase s }))
  else .error (.invalid_data .noSatelliteSubhalos)

/-- `TreeBuilder::define_central_subhalo` (singular), lines 186-210: point
the halo's central reference at the subhalo, inherit position, velocity,
concentration and spin, take the larger virial velocity, remove the subhalo
from the satellite list (throws if absent) and tag it CENTRAL. -/
def define_central_subhalo (st : State) (h : HaloId) (s : SubhaloId) :
    Except Err State :=
  let st := st.modifyHalo h (fun H =>
    { H with
      central_subhalo := some s,
      position := (st.sub s).position,
      velocity := (st.sub s).velocity,
      concentration := (st.sub s).concentration,
      lambda := (st.sub s).lambda,
      Vvir := if H.Vvir < (st.sub s).Vvir then (st.sub s).Vvir else H.Vvir })
  match remove_satellite st h s with
  | .error e => .error e
  | .ok st => .ok (st.modifySub s (fun S => { S with subhalo_type := .CENTRAL }))

/-- Modelled from the spec: `Subhalo::main` (header not under `src/`)
returns the ascendant carrying the main-progenitor flag, if any. -/
def State.mainProgenitor (st : State) (s : SubhaloId) : Option SubhaloId :=
  (st.sub s).ascendants.find? (fun a => (st.sub a).main_progenitor)

/-- `std::max_element` over ascendants comparing `Mvir` (first maximum). -/
def maxByMvir (st : State) : List SubhaloId → Option SubhaloId
  | [] => none
  | a :: rest =>
      some (rest.foldl (fun best x =>
        if (st.sub best).Mvir < (st.sub x).Mvir then x else best) a)

/-- The backward main-progenitor walk of `define_central_subhalos`
(lines 243-281), fuelled against cyclic ascendant graphs (`none` models the
C++ loop never terminating). -/
def centralWalk : Nat → State → SubhaloId → Option (Except Err State)
  | fuel, st, subh =>
      if (st.sub subh).ascendants = [] then some (.ok st)
      else
        match fuel with
        | 0 => none
        | fuel + 1 =>
            let ascendants := (st.sub subh).ascendants
            let main_prog :=
              match st.mainProgenitor subh with
              | some m => some m
              | none => maxByMvir st ascendants
            match main_prog with
            | none => none
            | some mp =>
                let st := st.modifySub mp (fun S => { S with main_progenitor := true })
                let ascendant_halo := (st.sub mp).host_halo
                if (st.halo ascendant_halo).central_subhalo.isSome then some (.ok st)
                else
                  match define_central_subhalo st ascendant_halo mp with
                  | .error e => some (.error e)
                  | .ok st =>
                      let st := ascendants.foldl (fun st sub =>
                        if (st.sub sub).main_progenitor then st
                        else st.modifySub sub
                          (fun S => { S with last_snapshot_identified := S.snapshot })) st
                      centralWalk fuel st mp

/-- Note: in the C++ the ascendant list is re-read and the flag is set
before the walk recurses; setting `main_progenitor := true` when the flag
was already found set is idempotent, matching the source. -/
def processHaloCentral (fuel : Nat) (st : State) (h : HaloId) :
    Option (Except Err State) :=
  if (st.halo h).central_subhalo.isSome then some (.ok st)
  else
    match st.all_subhalos h with
    | [] => none
    | c :: _ =>
        match define_central_subhalo st h c with
        | .error e => some (.error e)
        | .ok st => centralWalk fuel st c

/-- Fold a fallible, possibly diverging per-element action. -/
def foldOE {α : Type} (f : State → α → Option (Except Err State)) :
    List α → State → Option (Except Err State)
  | [], st => some (.ok st)
  | a :: l, st =>
      match f st a with
      | none => none
      | some (.error e) => some (.error e)
      | some (.ok st') => foldOE f l st'

def processSnapshotCentral (fuel : Nat) (t : TreeId) (st : State) (s : Int) :
    Option (Except Err State) :=
  foldOE (fun st h => processHaloCentral fuel st h) (st.bucket t s) st

def processTreeCentral (fuel : Nat) (minS maxS : Int) (st : State) (t : TreeId) :
    Option (Except Err State) :=
  foldOE (fun st s => processSnapshotCentral fuel t st s) (snapshotsDesc maxS minS) st

/-- The count-and-throw body of the central-subhalo post-condition check
(lines 296-311): count CENTRAL-typed hosted subhalos, failing on the first
excess, then fail if none was found. -/
def checkHaloCentralLoop (st : State) : Nat → List SubhaloId → Except Err Nat
  | i, [] => .ok i
  | i, s :: rest =>
      if (st.sub s).subhalo_type = .CENTRAL then
        if i + 1 > 1 then .error (.invalid_argument .moreThanOneCentral)
        else checkHaloCentralLoop st (i + 1) rest
      else checkHaloCentralLoop st i rest

def checkHaloCentral (st : State) (h : HaloId) : Except Err Unit :=
  match checkHaloCentralLoop st 0 (st.all_subhalos h) with
  | .error e => .error e
  | .ok i => if i = 0 then .error (.invalid_argument .noCentral) else .ok ()

def checkBucketCentral (st : State) : List HaloId → Except Err Unit
  | [] => .ok ()
  | h :: l =>
      match checkHaloCentral st h with
      | .error e => .error e
      | .ok _ => checkBucketCentral st l

def checkSnapshotsCentral (st : State) (t : TreeId) : List Int → Except Err Unit
  | [] => .ok ()
  | s :: ss =>
      match checkBucketCentral st (st.bucket t s) with
      | .error e => .error e
      | .ok _ => checkSnapshotsCentral st t ss

def checkTreesCentral (st : State) (snaps : List Int) : List TreeId → Except Err Unit
  | [] => .ok ()
  | t :: ts =>
      match checkSnapshotsCentral st t snaps with
      | .error e => .error e
      | .ok _ => checkTreesCentral st snaps ts

/-- The post-condition check of `define_central_subhalos` (lines 286-314):
for each tree it walks the snapshots produced by the (mis-bounded) loop
`for (snapshot = min_snapshot; snapshot >= max_snapshot; snapshot++)` and
verifies the exactly-one-central property on every halo it visits. -/
def checkCentralSubhalos (st : State) (treeIds : List TreeId) (minS maxS : Int) :
    Option (Except Err Unit) :=
  match ascendingGeLoopSnapshots minS maxS with
  | none => none
  | some snaps => some (checkTreesCentral st snaps treeIds)

/-- `TreeBuilder::define_central_subhalos`, lines 212-315: the resolution
loop over trees and descending snapshots, followed by the
exactly-one-central post-condition check. -/
def define_central_subhalos (st : State) (treeIds : List TreeId) (fuel : Nat)
    (minS maxS : Int) : Option (Except Err State) :=
  match foldOE (fun st t => processTreeCentral fuel minS maxS st t) treeIds st with
  | none => none
  | some (.error e) => some (.error e)
  | some (.ok st) =>
      match checkCentralSubhalos st treeIds minS maxS with
      | none => none
      | some (.error e) => some (.error e)
      | some (.ok _) => some (.ok st)

/-- One halo of `TreeBuilder::ensure_halo_mass_growth` (lines 330-335):
`if (halo->Mvir > halo->descendant->Mvir) halo->descendant->Mvir = halo->Mvir`;
`none` models the unguarded dereference of a null `descendant`. -/
def massGrowthStep (st : State) (h : HaloId) : Option State :=
  match (st.halo h).descendant with
  | none => none
  | some d =>
      if (st.halo d).Mvir < (st.halo h).Mvir then
        some (st.modifyHalo d (fun H => { H with Mvir := (st.halo h).Mvir }))
      else some st

def massGrowthHalos : List HaloId → State → Option State
  | [], st => some st
  | h :: l, st =>
      match massGrowthStep st h with
      | none => none
      | some st' => massGrowthHalos l st'

def massGrowthSnapshot (t : TreeId) (st : State) (s : Int) : Option State :=
  massGrowthHalos (st.bucket t s) st

def massGrowthSnapshots (t : TreeId) : List Int → State → Option State
  | [], st => some st
  | s :: ss, st =>
      match massGrowthSnapshot t st s with
      | none => none
      | some st' => massGrowthSnapshots t ss st'

def massGrowthTree (minS maxS : Int) (st : State) (t : TreeId) : Option State :=
  massGrowthSnapshots t (snapRange minS (maxS - minS).toNat) st

def massGrowthTrees (minS maxS : Int) : List TreeId → State → Option State
  | [], st => some st
  | t :: ts, st =>
      match massGrowthTree minS maxS st t with
      | none => none
      | some st' => massGrowthTrees minS maxS ts st'

/-- `TreeBuilder::ensure_halo_mass_growth`, lines 317-338: per tree, for
snapshots `min_snapshot` up to `max_snapshot - 1`, raise each bucket halo's
descendant's `Mvir` to the halo's when the latter is larger. -/
def ensure_halo_mass_growth (st : State) (treeIds : List TreeId)
    (minS maxS : Int) : Option State :=
  massGrowthTrees minS maxS treeIds st

/-- `std::accumulate` of the ascendant halos' virial masses (lines 388-390). -/
def accretionSum (st : State) (h : HaloId) : ℚ :=
  ((st.halo h).ascendants).foldl (fun m a => m + (st.halo a).Mvir) 0

/-- One halo of `define_accretion_rate_from_dm` (lines 384-404): write
`(halo->Mvir - Mvir_asc) * universal_baryon_fraction` into the central
subhalo's `accreted_mass`, then clamp negatives to zero; `none` models the
unguarded dereference of a null `central_subhalo`. -/
def accretionStep (fb : ℚ) (st : State) (h : HaloId) : Option State :=
  match (st.halo h).central_subhalo with
  | none => none
  | some c =>
      let st := st.modifySub c (fun S =>
        { S with accreted_mass := ((st.halo h).Mvir - accretionSum st h) * fb })
      let st :=
        if (st.sub c).accreted_mass < 0 then
          st.modifySub c (fun S => { S with accreted_mass := 0 })
        else st
      some st

def foldOState {α : Type} (f : State → α → Option State) :
    List α → State → Option State
  | [], st => some st
  | a :: l, st =>
      match f st a with
      | none => none
      | some st' => foldOState f l st'

def accretionSnapshot (fb : ℚ) (t : TreeId) (st : State) (s : Int) : Option State :=
  foldOState (accretionStep fb) (st.bucket t s) st

def accretionTree (fb : ℚ) (minS maxS : Int) (st : State) (t : TreeId) : Option State :=
  foldOState (fun st s => accretionSnapshot fb t st s) (snapshotsDesc maxS minS) st

/-- Per-snapshot running total of accreted baryons,
`AllBaryons.baryon_total_created`. -/
structure TotalBaryon where
  baryon_total_created : List (Int × ℚ) := []
deriving DecidableEq

def accumulateHalos (st : State) : ℚ → List HaloId → Option ℚ
  | total, [] => some total
  | total, h :: l =>
      match (st.halo h).central_subhalo with
      | none => none
      | some c => accumulateHalos st (total + (st.sub c).accreted_mass) l

def accumulateTreesAt (st : State) (s : Int) : ℚ → List TreeId → Option ℚ
  | total, [] => some total
  | total, t :: ts =>
      match accumulateHalos st total (st.bucket t s) with
      | none => none
      | some total' => accumulateTreesAt st s total' ts

/-- The accumulation phase of `define_accretion_rate_from_dm`
(lines 409-419): walking snapshots from `min_snapshot` to `max_snapshot`,
add every bucket halo's central `accreted_mass` into a single running total
and record it per snapshot. -/
def accumulateBaryons (st : State) (treeIds : List TreeId) :
    List Int → ℚ → TotalBaryon → Option TotalBaryon
  | [], _, ab => some ab
  | s :: ss, total, ab =>
      match accumulateTreesAt st s total treeIds with
      | none => none
      | some total' =>
          accumulateBaryons st treeIds ss total'
            { ab with baryon_total_created := upsert ab.baryon_total_created s total' }

/-- `TreeBuilder::define_accretion_rate_from_dm`, lines 377-421. -/
def define_accretion_rate_from_dm (st : State) (treeIds : List TreeId)
    (minS maxS : Int) (fb : ℚ) (ab : TotalBaryon) : Option (State × TotalBaryon) :=
  match foldOState (fun st t => accretionTree fb minS maxS st t) treeIds st with
  | none => none
  | some st' =>
      match accumulateBaryons st' treeIds (snapRange minS (maxS - minS + 1).toNat) 0 ab with
      | none => none
      | some ab' => some (st', ab')

/-- A halo record with its virial mass blanked, used to state that a pass
changes nothing but masses. -/
def Halo.shape (H : Halo) : Halo := { H with Mvir := 0 }

/-- The mass-growth pass touches only halo `Mvir` fields: subhalos, trees
and every other halo field are left unchanged. -/
def MassOnly (st st' : State) : Prop :=
  st'.subhalos = st.subhalos ∧ st'.trees = st.trees ∧
  ∀ j, (st'.halo j).shape = (st.halo j).shape

/-- Descendant invariant relied upon by `ensure_halo_mass_growth`: every
halo sitting in a tree bucket at a snapshot strictly below `max_snapshot`
has a non-null descendant. -/
def DescInv (maxS : Int) (st : State) : Prop :=
  ∀ p ∈ st.trees, ∀ q ∈ p.2, q.1 < maxS → ∀ h ∈ q.2,
    ((st.halo h).descendant).isSome = true

/-- Number of occurrences of a halo in one tree's buckets. -/
def bucketOcc (m : List (Int × List HaloId)) (h : HaloId) : Nat :=
  (m.map (fun q => q.2.count h)).sum

/-- Number of occurrences of a halo across all trees' buckets. -/
def State.occ (st : State) (h : HaloId) : Nat :=
  (st.trees.map (fun p => bucketOcc p.2 h)).sum

/-- Well-formedness of the forest maintained by the Linker: every halo in a
tree bucket references that tree, sits at the bucket's snapshot and appears
exactly once across all buckets; every halo with a tree reference appears
in a bucket; the halo-level ascendant/descendant links agree with each
other; and a descendant edge implies both ends share one assigned merger
tree.  (Quantifiers run over the finite arena so the predicate is
decidable; keys absent from the arena dereference to the default record,
for which every clause is vacuous.) -/
def TreeWF (st : State) : Prop :=
  (∀ p ∈ st.trees, ∀ q ∈ p.2, ∀ h ∈ q.2,
    (st.halo h).merger_tree = some p.1 ∧ (st.halo h).snapshot = q.1 ∧ st.occ h = 1) ∧
  (∀ i ∈ st.halos.map Prod.fst, ((st.halo i).merger_tree).isSome = true → st.occ i = 1) ∧
  (∀ i ∈ st.halos.map Prod.fst, ∀ a ∈ (st.halo i).ascendants,
    (st.halo a).descendant = some i) ∧
  (∀ i ∈ st.halos.map Prod.fst, ∀ d, (st.halo i).descendant = some d →
    i ∈ (st.halo d).ascendants) ∧
  (∀ i ∈ st.halos.map Prod.fst, ∀ d, (st.halo i).descendant = some d →
    (st.halo i).merger_tree = (st.halo d).merger_tree ∧
      ((st.halo d).merger_tree).isSome = true)

/-- Ordered set insertion for `std::set<int>` (ascending, no duplicates). -/
def insertSortedAsc (x : Int) : List Int → List Int
  | [] => [x]
  | y :: ys => if x < y then x :: y :: ys else if x = y then y :: ys else y :: insertSortedAsc x ys

/-- The `std::set<int> halo_snapshots` of `loop_through_halos` (lines
471-474): all snapshots present in the halo population, increasing. -/
def halo_snapshots (st : State) (halos : List HaloId) : List Int :=
  halos.foldl (fun acc h => insertSortedAsc (st.halo h).snapshot acc) []

/-- `sorted_halo_snapshots` (line 475): the snapshots present in the halo
population in decreasing order, skipping the first (the largest), as
`std::vector<int>(++(halo_snapshots.rbegin()), halo_snapshots.rend())`. -/
def sorted_halo_snapshots (st : State) (halos : List HaloId) : List Int :=
  ((halo_snapshots st halos).reverse).drop 1

/-- `halos_by_snapshot[s]` (lines 448-453): the halos of the input
population at snapshot `s`, in input order. -/
def halosAtSnapshot (st : State) (halos : List HaloId) (s : Int) : List HaloId :=
  halos.filter (fun h => (st.halo h).snapshot = s)

/-- Result of processing one subhalo inside the per-halo loop of
`loop_through_halos` (lines 488-559): either continue with the next subhalo
(recording whether this one was linked and whether a missing-descendant
warning was emitted), or break out of the subhalo loop with the halo erased
from `halos_by_id`, or abort the run. -/
inductive StepResult where
  | next (st : State) (linked : Bool) (warned : Bool)
  | break_ignore (ids : List HaloId)
  | fail (e : Err)
deriving DecidableEq

/-- One subhalo of the linker loop, `tree_builder.cpp` lines 488-559:
skip-and-detach subhalos without descendants; abandon the halo when the
claimed descendant halo id is not in `halos_by_id`; otherwise search the
descendant halo's subhalos for the claimed descendant subhalo id, enforce
direct (adjacent-snapshot) parentage and link, or apply the
missing-descendant policy flags. -/
def processSubhalo (p : ExecutionParameters) (st : State) (ids : List HaloId)
    (h : HaloId) (sh : SubhaloId) : StepResult :=
  if ¬ (st.sub sh).has_descendant then
    .next (st.remove_subhalo h sh) false false
  else if (st.sub sh).descendant_halo_id ∉ ids then
    .break_ignore (ids.erase h)
  else
    let dh := (st.sub sh).descendant_halo_id
    match (st.all_subhalos dh).find? (fun ds => ds = (st.sub sh).descendant_id) with
    | some dsub =>
        if (st.sub sh).snapshot ≠ (st.sub dsub).snapshot - 1 then
          .fail (.invalid_data .notDirectDescendant)
        else
          match link st sh dsub h dh with
          | .error e => .fail e
          | .ok st' => .next st' true false
    | none =>
        if ¬ p.skip_missing_descendants then
          .fail (.subhalo_not_found (st.sub sh).descendant_id)
        else
          .next (st.remove_subhalo h sh) false p.warn_on_missing_descendants

/-- The subhalo loop of one halo (lines 487-560), folding `processSubhalo`
over the halo's subhalo list with the `halo_linked` flag. -/
def processHaloSubhalos (p : ExecutionParameters) (h : HaloId) :
    List SubhaloId → State → List HaloId → Bool → Except Err (State × List HaloId × Bool)
  | [], st, ids, linked => .ok (st, ids, linked)
  | sh :: rest, st, ids, linked =>
      match processSubhalo p st ids h sh with
      | .next st' linked' _ => processHaloSubhalos p h rest st' ids (linked || linked')
      | .break_ignore ids' => .ok (st, ids', linked)
      | .fail e => .error e

/-- One halo of the linker loop (lines 485-572): process its subhalos; if
none produced a link, erase the halo from `halos_by_id`. -/
def processHaloLink (p : ExecutionParameters) (st : State) (ids : List HaloId)
    (h : HaloId) : Except Err (State × List HaloId) :=
  match processHaloSubhalos p h (st.all_subhalos h) st ids false with
  | .error e => .error e
  | .ok (st', ids', linked) =>
      if linked then .ok (st', ids') else .ok (st', ids'.erase h)

def processSnapshotLink (p : ExecutionParameters) :
    List HaloId → State → List HaloId → Except Err (State × List HaloId)
  | [], st, ids => .ok (st, ids)
  | h :: hs, st, ids =>
      match processHaloLink p st ids h with
      | .error e => .error e
      | .ok (st', ids') => processSnapshotLink p hs st' ids'

def linkSnapshots (p : ExecutionParameters) (st0 : State) (halos : List HaloId) :
    List Int → State → List HaloId → Except Err (State × List HaloId)
  | [], st, ids => .ok (st, ids)
  | s :: ss, st, ids =>
      match processSnapshotLink p (halosAtSnapshot st0 halos s) st ids with
      | .error e => .error e
      | .ok (st', ids') => linkSnapshots p st0 halos ss st' ids'

/-- `HaloBasedTreeBuilder::loop_through_halos`, lines 444-588: index halos
by snapshot and id (the indices are built once, from the input population),
then walk the snapshots in decreasing order, skipping the most recent one,
linking subhalos to their descendants. -/
def loop_through_halos (p : ExecutionParameters) (st : State)
    (halos : List HaloId) : Except Err (State × List HaloId) :=
  linkSnapshots p st halos (sorted_halo_snapshots st halos) st halos

/-- Example population for the linker's snapshot selection: halo 1 at
snapshot 5, halo 2 at snapshot 3; only snapshot 3 is an output snapshot. -/
def c2St : State :=
  { halos := [(1, { snapshot := 5 }), (2, { snapshot := 3 })] }

def c2Exec : ExecutionParameters := { output_snapshots := [3] }

/-- Example state for the `link` invariants: subhalo 1 already has a
descendant, halo 2 owns a merger tree. -/
def c6St : State :=
  { halos := [(1, {}), (2, { merger_tree := some 0 })],
    subhalos := [(1, { descendant := some 9 }), (2, {})] }

/-- Example linkable state: halo 1 (parent, snapshot 0, unassigned) hosts
subhalo 1; halo 2 (descendant, snapshot 1) sits in tree 0's bucket and
hosts subhalo 2. -/
def c5St : State :=
  { halos := [(1, { snapshot := 0 }), (2, { snapshot := 1, merger_tree := some 0 })],
    subhalos := [(1, {}), (2, {})],
    trees := [(0, [(1, [2])])] }

/-- Example three-snapshot chain for the mass-growth pass: halo 2 (mass 10)
exceeds its descendant halo 3 (mass 4), as in the spec's Scenario D. -/
def c4St : State :=
  { halos := [(1, { snapshot := 0, Mvir := 5, descendant := some 2 }),
              (2, { snapshot := 1, Mvir := 10, descendant := some 3 }),
              (3, { snapshot := 2, Mvir := 4 })],
    trees := [(0, [(0, [1]), (1, [2]), (2, [3])])] }

/-- Example state for the missing-descendant policy: subhalo 1 (hosted by
halo 1) claims descendant subhalo 5 inside halo 2, but halo 2 only hosts
subhalo 9. -/
def c7St : State :=
  { halos := [(1, { satellite_subhalos := [1] }), (2, { satellite_subhalos := [9] })],
    subhalos := [(1, { has_descendant := true, descendant_halo_id := 2, descendant_id := 5 }),
                 (9, {})] }

def c7pFail : ExecutionParameters := {}

def c7pWarn : ExecutionParameters :=
  { skip_missing_descendants := true, warn_on_missing_descendants := true }

def c7pSilent : ExecutionParameters := { skip_missing_descendants := true }

/-- Example state for direct-parentage enforcement: subhalo 1 at snapshot 0
claims descendant subhalo 7, which sits at snapshot 5 — not the adjacent
snapshot. -/
def c8St : State :=
  { halos := [(1, { satellite_subhalos := [1] }), (2, { satellite_subhalos := [7] })],
    subhalos := [(1, { has_descendant := true, descendant_halo_id := 2, descendant_id := 7,
                       snapshot := 0 }),
                 (7, { snapshot := 5 })] }

/-- Example forest violating the exactly-one-central post-condition: halo 1
(tree 0, snapshot 1) hosts two satellites both pre-tagged CENTRAL, as in
the spec's Scenario C. -/
def c1St : State :=
  { halos := [(1, { snapshot := 1, satellite_subhalos := [1, 2] })],
    subhalos := [(1, { subhalo_type := .CENTRAL }), (2, { subhalo_type := .CENTRAL })],
    trees := [(0, [(1, [1])])] }

/-- Example already-resolved forest: halo 1 (tree 0, snapshot 1) already
has a central subhalo. -/
def c9St : State :=
  { halos := [(1, { snapshot := 1, central_subhalo := some 1 })],
    subhalos := [(1, { subhalo_type := .CENTRAL })],
    trees := [(0, [(1, [1])])] }

/-- Example forest state for the accretion bookkeeper: halo 1 (mass 10) and
halo 2 (mass 1) each have the single ascendant halo 3 (mass 4) and centrals
1 and 2. -/
def c3St : State :=
  { halos :=
      [(1, { Mvir := 10, ascendants := [3], central_subhalo := some 1 }),
       (2, { Mvir := 1, ascendants := [3], central_subhalo := some 2 }),
       (3, { Mvir := 4 })],
    subhalos := [(1, {}), (2, {})] }

/-- Root seeding of `build_trees` (lines 83-93): every halo at the first
output snapshot becomes the sole member of a fresh sequentially-numbered
tree. -/
def seedTrees (root : Int) : List HaloId → State → Nat → State × Nat × List TreeId
  | [], st, counter => (st, counter, [])
  | h :: hs, st, counter =>
      if (st.halo h).snapshot = root then
        let t := counter
        let st := st.modifyHalo h (fun H => { H with merger_tree := some t })
        let st := st.add_halo t h
        let (st', counter', ts) := seedTrees root hs st (counter + 1)
        (st', counter', t :: ts)
      else seedTrees root hs st counter

/-- `TreeBuilder::build_trees`, lines 76-139: seed trees at the first
output snapshot (fail with `invalid_data` when there is none), link, check
self-containment, optionally enforce mass growth, resolve central subhalos
and run the accretion bookkeeper.  The outer `Option` models executions
with undefined or non-terminating behaviour. -/
def build_trees (p : ExecutionParameters) (sim : SimulationParameters) (fb : ℚ)
    (fuel : Nat) (st : State) (halos : List HaloId) (ab : TotalBaryon) :
    Option (Except Err (State × List TreeId × TotalBaryon)) :=
  match p.output_snapshots.head? with
  | none => none
  | some root =>
      let (st, _, treeIds) := seedTrees root halos st 0
      if treeIds = [] then some (.error (.invalid_data .noHaloAtRootSnapshot))
      else
        match loop_through_halos p st halos with
        | .error e => some (.error e)
        | .ok (st, _) =>
            match ensure_trees_are_self_contained st treeIds with
            | .error e => some (.error e)
            | .ok _ =>
                match
                  (if p.ensure_mass_growth then
                    ensure_halo_mass_growth st treeIds sim.min_snapshot sim.max_snapshot
                  else some st) with
                | none => none
                | some st =>
                    match define_central_subhalos st treeIds fuel
                        sim.min_snapshot sim.max_snapshot with
                    | none => none
                    | some (.error e) => some (.error e)
                    | some (.ok st) =>
                        match define_accretion_rate_from_dm st treeIds
                            sim.min_snapshot sim.max_snapshot fb ab with
                        | none => none
                        | some (st, ab) => some (.ok (st, treeIds, ab))

/-! ### Association-list lemmas -/

theorem lookupA_upsert {κ α : Type} [DecidableEq κ] (l : List (κ × α)) (k : κ) (v : α)
    (k' : κ) : lookupA (upsert l k v) k' = if k' = k then some v else lookupA l k' := by
  induction l with
  | nil => simp [upsert, lookupA]
  | cons p l ih =>
    obtain ⟨k₀, v₀⟩ := p
    by_cases hk : k = k₀
    · subst hk
      by_cases h' : k' = k <;> simp [upsert, lookupA, h']
    · by_cases h' : k' = k₀
      · subst h'
        have hk' : ¬ k' = k := fun h => hk h.symm
        simp [upsert, lookupA, hk, hk']
      · simp [upsert, lookupA, hk, h', ih]

theorem lookupA_mem {κ α : Type} [DecidableEq κ] {l : List (κ × α)} {k : κ} {v : α}
    (h : lookupA l k = some v) : (k, v) ∈ l := by
  induction l with
  | nil => simp [lookupA] at h
  | cons p l ih =>
    obtain ⟨k₀, v₀⟩ := p
    by_cases hk : k = k₀
    · subst hk
      simp [lookupA] at h
      simp [h]
    · simp [lookupA, hk] at h
      exact List.mem_cons_of_mem _ (ih h)

theorem upsert_self {κ α : Type} [DecidableEq κ] {l : List (κ × α)} {k : κ} {v : α}
    (h : lookupA l k = some v) : upsert l k v = l := by
  induction l with
  | nil => simp [lookupA] at h
  | cons p l ih =>
    obtain ⟨k₀, v₀⟩ := p
    by_cases hk : k = k₀
    · subst hk
      simp [lookupA] at h
      simp [upsert, h]
    · simp [lookupA, hk] at h
      simp [upsert, hk, ih h]

theorem mem_upsert {κ α : Type} [DecidableEq κ] {l : List (κ × α)} {k : κ} {v : α}
    {p : κ × α} (h : p ∈ upsert l k v) : p ∈ l ∨ p = (k, v) := by
  induction l with
  | nil => simp [upsert] at h; simp [h]
  | cons q l ih =>
    obtain ⟨k₀, v₀⟩ := q
    by_cases hk : k = k₀
    · subst hk
      simp [upsert] at h
      rcases h with h | h
      · right; simp [h]
      · left; exact List.mem_cons_of_mem _ h
    · simp [upsert, hk] at h
      rcases h with h | h
      · left; simp [h]
      · rcases ih h with h' | h'
        · left; exact List.mem_cons_of_mem _ h'
        · right; exact h'

/-! ### State accessor lemmas -/

@[simp] theorem State.halo_setHalo (st : State) (i : HaloId) (h : Halo) (j : HaloId) :
    (st.setHalo i h).halo j = if j = i then h else st.halo j := by
  simp only [State.setHalo, State.halo, lookupA_upsert]
  split <;> simp

@[simp] theorem State.halo_modifyHalo (st : State) (i : HaloId) (f : Halo → Halo)
    (j : HaloId) : (st.modifyHalo i f).halo j = if j = i then f (st.halo i) else st.halo j := by
  simp [State.modifyHalo]

@[simp] theorem State.sub_setSub (st : State) (i : SubhaloId) (s : Subhalo) (j : SubhaloId) :
    (st.setSub i s).sub j = if j = i then s else st.sub j := by
  simp only [State.setSub, State.sub, lookupA_upsert]
  split <;> simp

@[simp] theorem State.sub_modifySub (st : State) (i : SubhaloId) (f : Subhalo → Subhalo)
    (j : SubhaloId) : (st.modifySub i f).sub j = if j = i then f (st.sub i) else st.sub j := by
  simp [State.modifySub]

@[simp] theorem State.halo_setSub (st : State) (i : SubhaloId) (s : Subhalo) (j : HaloId) :
    (st.setSub i s).halo j = st.halo j := rfl

@[simp] theorem State.halo_modifySub (st : State) (i : SubhaloId) (f : Subhalo → Subhalo)
    (j : HaloId) : (st.modifySub i f).halo j = st.halo j := rfl

@[simp] theorem State.sub_setHalo (st : State) (i : HaloId) (h : Halo) (j : SubhaloId) :
    (st.setHalo i h).sub j = st.sub j := rfl

@[simp] theorem State.sub_modifyHalo (st : State) (i : HaloId) (f : Halo → Halo)
    (j : SubhaloId) : (st.modifyHalo i f).sub j = st.sub j := rfl

@[simp] theorem State.trees_setHalo (st : State) (i : HaloId) (h : Halo) :
    (st.setHalo i h).trees = st.trees := rfl

@[simp] theorem State.trees_modifyHalo (st : State) (i : HaloId) (f : Halo → Halo) :
    (st.modifyHalo i f).trees = st.trees := rfl

@[simp] theorem State.trees_setSub (st : State) (i : SubhaloId) (s : Subhalo) :
    (st.setSub i s).trees = st.trees := rfl

@[simp] theorem State.trees_modifySub (st : State) (i : SubhaloId) (f : Subhalo → Subhalo) :
    (st.modifySub i f).trees = st.trees := rfl

@[simp] theorem State.halos_setSub (st : State) (i : SubhaloId) (s : Subhalo) :
    (st.setSub i s).halos = st.halos := rfl

@[simp] theorem State.subhalos_setHalo (st : State) (i : HaloId) (h : Halo) :
    (st.setHalo i h).subhalos = st.subhalos := rfl

@[simp] theorem State.halo_add_halo (st : State) (t : TreeId) (i : HaloId) (j : HaloId) :
    (st.add_halo t i).halo j = st.halo j := rfl

@[simp] theorem State.sub_add_halo (st : State) (t : TreeId) (i : HaloId) (j : SubhaloId) :
    (st.add_halo t i).sub j = st.sub j := rfl

/-! ### Lemmas about the linker's snapshot selection (C2) -/

theorem mem_insertSortedAsc (x : Int) (l : List Int) (a : Int) :
    a ∈ insertSortedAsc x l ↔ a = x ∨ a ∈ l := by
  induction l with
  | nil => simp [insertSortedAsc]
  | cons y ys ih =>
    by_cases h1 : x < y
    · simp [insertSortedAsc, h1]
    · by_cases h2 : x = y
      · subst h2
        simp only [insertSortedAsc, if_neg (lt_irrefl x)]
        simp only [if_true, List.mem_cons]
        tauto
      · simp only [insertSortedAsc, if_neg h1, if_neg h2, List.mem_cons, ih]
        tauto

theorem pairwise_insertSortedAsc (x : Int) (l : List Int)
    (h : l.Pairwise (· < ·)) : (insertSortedAsc x l).Pairwise (· < ·) := by
  induction l with
  | nil => simp [insertSortedAsc]
  | cons y ys ih =>
    rw [List.pairwise_cons] at h
    obtain ⟨hy, hys⟩ := h
    by_cases h1 : x < y
    · simp only [insertSortedAsc, if_pos h1]
      rw [List.pairwise_cons]
      refine ⟨?_, List.pairwise_cons.mpr ⟨hy, hys⟩⟩
      intro a ha
      rcases List.mem_cons.mp ha with rfl | ha
      · exact h1
      · exact lt_trans h1 (hy a ha)
    · by_cases h2 : x = y
      · subst h2
        simp only [insertSortedAsc, if_neg h1, if_pos rfl]
        exact List.pairwise_cons.mpr ⟨hy, hys⟩
      · have hyx : y < x := by omega
        simp only [insertSortedAsc, if_neg h1, if_neg h2]
        rw [List.pairwise_cons]
        refine ⟨?_, ih hys⟩
        intro a ha
        rcases (mem_insertSortedAsc x ys a).mp ha with rfl | ha
        · exact hyx
        · exact hy a ha

theorem pairwise_halo_snapshots_fold (st : State) :
    ∀ (hs : List HaloId) (acc : List Int), acc.Pairwise (· < ·) →
      (hs.foldl (fun acc h => insertSortedAsc (st.halo h).snapshot acc) acc).Pairwise (· < ·) := by
  intro hs
  induction hs with
  | nil => intro acc h; simpa using h
  | cons h hs ih =>
    intro acc hacc
    exact ih _ (pairwise_insertSortedAsc _ _ hacc)

theorem mem_halo_snapshots_fold (st : State) :
    ∀ (hs : List HaloId) (acc : List Int) (a : Int),
      a ∈ hs.foldl (fun acc h => insertSortedAsc (st.halo h).snapshot acc) acc ↔
        a ∈ acc ∨ ∃ h ∈ hs, (st.halo h).snapshot = a := by
  intro hs
  induction hs with
  | nil => simp
  | cons h hs ih =>
    intro acc a
    simp only [List.foldl_cons, ih, mem_insertSortedAsc, List.mem_cons]
    constructor
    · rintro ((rfl | ha) | ⟨h', hh', hs'⟩)
      · exact Or.inr ⟨h, Or.inl rfl, rfl⟩
      · exact Or.inl ha
      · exact Or.inr ⟨h', Or.inr hh', hs'⟩
    · rintro (ha | ⟨h', (rfl | hh'), hs'⟩)
      · exact Or.inl (Or.inr ha)
      · exact Or.inl (Or.inl hs'.symm)
      · exact Or.inr ⟨h', hh', hs'⟩

theorem pairwise_halo_snapshots (st : State) (halos : List HaloId) :
    (halo_snapshots st halos).Pairwise (· < ·) :=
  pairwise_halo_snapshots_fold st halos [] (by simp)

theorem mem_halo_snapshots (st : State) (halos : List HaloId) (a : Int) :
    a ∈ halo_snapshots st halos ↔ ∃ h ∈ halos, (st.halo h).snapshot = a := by
  simpa using mem_halo_snapshots_fold st halos [] a

/-- For a strictly increasing list, the tail of the reverse contains exactly
the elements that are not the maximum. -/
theorem mem_reverse_drop_one {l : List Int} (hl : l.Pairwise (· < ·)) (s : Int) :
    s ∈ l.reverse.drop 1 ↔ s ∈ l ∧ ∃ t ∈ l, s < t := by
  induction l using List.reverseRecOn with
  | nil => simp
  | append_singleton init m _ =>
    rw [List.pairwise_append] at hl
    obtain ⟨hinit, -, hlt⟩ := hl
    have hrev : (init ++ [m]).reverse = m :: init.reverse := by simp
    rw [hrev]
    simp only [List.drop_one, List.tail_cons, List.mem_reverse, List.mem_append,
      List.mem_singleton]
    constructor
    · intro hs
      refine ⟨Or.inl hs, m, Or.inr rfl, hlt s hs m (by simp)⟩
    · rintro ⟨hs | rfl, t, ht, hst⟩
      · exact hs
      · rcases ht with ht | rfl
        · exact absurd (hlt t ht s (by simp)) (by omega)
        · omega

/-- C2, corrected: the Linker's `sorted_halo_snapshots` is strictly
descending and contains exactly the snapshots present in the halo
population that are not the population's maximum — so the single skipped
snapshot is the largest snapshot any halo carries (which coincides with the
seeded root snapshot only when that root snapshot is the population's
maximum), not unconditionally the first entry of the output-snapshot
list. -/
theorem c2_linker_descending_skips_population_max (st : State) (halos : List HaloId) :
    (sorted_halo_snapshots st halos).Pairwise (· > ·) ∧
    (∀ s : Int, s ∈ sorted_halo_snapshots st halos ↔
      ((∃ h ∈ halos, (st.halo h).snapshot = s) ∧
        ∃ h' ∈ halos, s < (st.halo h').snapshot)) ∧
    (∀ r : Int, (∀ h ∈ halos, (st.halo h).snapshot ≤ r) →
      r ∉ sorted_halo_snapshots st halos) := by
  have hpw := pairwise_halo_snapshots st halos
  have hmem : ∀ s : Int, s ∈ sorted_halo_snapshots st halos ↔
      ((∃ h ∈ halos, (st.halo h).snapshot = s) ∧
        ∃ h' ∈ halos, s < (st.halo h').snapshot) := by
    intro s
    rw [sorted_halo_snapshots, mem_reverse_drop_one hpw s, mem_halo_snapshots]
    constructor
    · rintro ⟨h1, t, ht, hst⟩
      obtain ⟨h', hh', rfl⟩ := (mem_halo_snapshots st halos t).mp ht
      exact ⟨h1, h', hh', hst⟩
    · rintro ⟨h1, h', hh', hst⟩
      exact ⟨h1, (st.halo h').snapshot,
        (mem_halo_snapshots st halos _).mpr ⟨h', hh', rfl⟩, hst⟩
  refine ⟨?_, hmem, ?_⟩
  · rw [sorted_halo_snapshots]
    exact ((List.pairwise_reverse.mpr hpw).sublist (List.drop_sublist 1 _))
  · intro r hub hr
    obtain ⟨-, h', hh', hlt⟩ := (hmem r).mp hr
    exact absurd (hub h' hh') (by omega)

/-- C2 witness: the strict upper-bound conjunct applied to a concrete
population whose snapshots are 5 and 3. -/
theorem c2_witness : (5 : Int) ∉ sorted_halo_snapshots c2St [1, 2] :=
  (c2_linker_descending_skips_population_max c2St [1, 2]).2.2 5 (by decide)

/-- C2 counterexample to the claim as stated: with halos at snapshots 5 and
3 and the output-snapshot list headed by 3, the Linker processes snapshot 3
— the root snapshot seeded by `build_trees` — and skips 5 instead. -/
theorem c2_counterexample :
    c2Exec.output_snapshots.head? = some 3 ∧
    (c2St.halo 1).snapshot = 5 ∧ (c2St.halo 2).snapshot = 3 ∧
    sorted_halo_snapshots c2St [1, 2] = [3] ∧
    3 ∈ sorted_halo_snapshots c2St [1, 2] := by decide

/-! ### Accretion bookkeeping (C3) -/

/-- C3: for every halo the accretion bookkeeper processes, the halo's
central subhalo receives
`accreted_mass = max 0 ((halo.Mvir - sum of ascendant Mvir) * universal_baryon_fraction)`;
in particular the stored value is never negative — negative intermediate
results are clamped to zero rather than raising an error. -/
theorem c3_accreted_mass_is_clamped_formula (st : State) (fb : ℚ) (h : HaloId)
    (c : SubhaloId) (hc : (st.halo h).central_subhalo = some c) :
    ∃ st', accretionStep fb st h = some st' ∧
      (st'.sub c).accreted_mass =
        max 0 (((st.halo h).Mvir - accretionSum st h) * fb) ∧
      0 ≤ (st'.sub c).accreted_mass := by
  by_cases hneg : ((st.halo h).Mvir - accretionSum st h) * fb < 0
  · have hmax : max 0 (((st.halo h).Mvir - accretionSum st h) * fb) = 0 :=
      max_eq_left (le_of_lt hneg)
    refine ⟨(st.modifySub c (fun S =>
        { S with accreted_mass := ((st.halo h).Mvir - accretionSum st h) * fb })).modifySub c
          (fun S => { S with accreted_mass := 0 }), ?_, ?_, ?_⟩
    · simp [accretionStep, hc, hneg]
    · simp [hmax]
    · simp
  · have hmax : max 0 (((st.halo h).Mvir - accretionSum st h) * fb) =
        ((st.halo h).Mvir - accretionSum st h) * fb :=
      max_eq_right (not_lt.mp hneg)
    refine ⟨st.modifySub c (fun S =>
        { S with accreted_mass := ((st.halo h).Mvir - accretionSum st h) * fb }), ?_, ?_, ?_⟩
    · simp [accretionStep, hc, hneg]
    · simp [hmax]
    · simpa using not_lt.mp hneg

/-! ### Evaluation lemmas for `link` -/

theorem linkTail_eq (st : State) (ph dh : HaloId) (b : Bool) :
    linkTail st ph dh b =
      match (st.halo dh).merger_tree with
      | none => .error (.invalid_data .descendantHasNoMergerTree)
      | some t =>
          let st1 := st.modifyHalo ph (fun H => { H with descendant := some dh })
          let st2 := st1.modifyHalo ph (fun H => { H with merger_tree := some t })
          if b then .ok (st2.add_halo t ph) else .ok st2 := by
  have h : ((st.modifyHalo ph fun H => { H with descendant := some dh }).halo dh).merger_tree
      = (st.halo dh).merger_tree := by
    by_cases hph : dh = ph <;> simp [hph]
  simp only [linkTail]
  rw [h]

theorem linkTail_error_iff (st : State) (ph dh : HaloId) (b : Bool) :
    (∃ e, linkTail st ph dh b = .error e) ↔ (st.halo dh).merger_tree = none := by
  rw [linkTail_eq]
  cases hmt : (st.halo dh).merger_tree with
  | none => simp
  | some t => by_cases hb : b <;> simp [hb]

theorem linkTail_error_val (st : State) (ph dh : HaloId) (b : Bool) (e : Err)
    (h : linkTail st ph dh b = .error e) :
    e = .invalid_data .descendantHasNoMergerTree := by
  rw [linkTail_eq] at h
  cases hmt : (st.halo dh).merger_tree with
  | none => rw [hmt] at h; cases h; rfl
  | some t => rw [hmt] at h; by_cases hb : b <;> simp [hb] at h

theorem linkMid_error_char (st : State) (ph dh : HaloId) :
    ((∃ e, linkMid st ph dh = .error e) ↔
      ((∃ d, (st.halo ph).descendant = some d ∧ d ≠ dh) ∨
        (st.halo dh).merger_tree = none)) ∧
    (∀ e, linkMid st ph dh = .error e → ∃ m, e = .invalid_data m) := by
  have h2 : ∀ (l : List HaloId),
      ((st.modifyHalo dh fun H => { H with ascendants := l }).halo ph).descendant
        = (st.halo ph).descendant := by
    intro l
    by_cases hph : ph = dh <;> simp [hph]
  have h3 : ∀ (l : List HaloId),
      ((st.modifyHalo dh fun H => { H with ascendants := l }).halo dh).merger_tree
        = (st.halo dh).merger_tree := by
    intro l; simp
  simp only [linkMid]
  rw [h2]
  cases hd : (st.halo ph).descendant with
  | none =>
    dsimp only
    constructor
    · rw [linkTail_error_iff, h3]
      simp
    · intro e he
      exact ⟨_, linkTail_error_val _ _ _ _ _ he⟩
  | some d =>
    dsimp only
    by_cases hdd : d = dh
    · rw [if_neg (not_not_intro hdd)]
      constructor
      · rw [linkTail_error_iff, h3]
        simp [hdd]
      · intro e he
        exact ⟨_, linkTail_error_val _ _ _ _ _ he⟩
    · rw [if_pos hdd]
      constructor
      · constructor
        · intro _; exact Or.inl ⟨d, rfl, hdd⟩
        · intro _; exact ⟨_, rfl⟩
      · intro e he
        cases he
        exact ⟨_, rfl⟩

theorem sub_push_ascendant_descendant (st : State) (ps ds : SubhaloId) :
    ((st.modifySub ds fun s =>
      { s with ascendants := s.ascendants ++ [ps] }).sub ps).descendant
      = (st.sub ps).descendant := by
  by_cases h : ps = ds <;> simp [h]

theorem link_error_of_subhalo_descendant (st : State) (ps ds : SubhaloId) (ph dh : HaloId)
    (hc1 : ((st.sub ps).descendant).isSome = true) :
    link st ps ds ph dh = .error (.invalid_data .subhaloAlreadyHasDescendant) := by
  simp only [link]
  rw [sub_push_ascendant_descendant, if_pos hc1]

theorem link_eq_linkMid (st : State) (ps ds : SubhaloId) (ph dh : HaloId)
    (hc1 : ¬ (((st.sub ps).descendant).isSome = true)) :
    link st ps ds ph dh =
      linkMid ((st.modifySub ds fun s =>
        { s with ascendants := s.ascendants ++ [ps] }).modifySub ps
          fun s => { s with descendant := some ds }) ph dh := by
  simp only [link]
  rw [sub_push_ascendant_descendant, if_neg hc1]

/-- C6: `link` enforces the at-most-one-descendant invariant at both
levels: it fails exactly when the parent subhalo already has a descendant,
or the parent halo already has a descendant halo of different identity
(re-linking to the same descendant halo is tolerated), or the descendant
halo has no merger tree assigned yet — and every such failure is
`invalid_data`. -/
theorem c6_link_invalid_data_conditions (st : State) (ps ds : SubhaloId) (ph dh : HaloId) :
    ((∃ e, link st ps ds ph dh = .error e) ↔
      ((st.sub ps).descendant.isSome = true ∨
        (∃ d, (st.halo ph).descendant = some d ∧ d ≠ dh) ∨
        (st.halo dh).merger_tree = none)) ∧
    (∀ e, link st ps ds ph dh = .error e → ∃ m, e = .invalid_data m) := by
  by_cases hc1 : (st.sub ps).descendant.isSome = true
  · have hlink := link_error_of_subhalo_descendant st ps ds ph dh hc1
    rw [hlink]
    constructor
    · constructor
      · intro _; exact Or.inl hc1
      · intro _; exact ⟨_, rfl⟩
    · intro e he; cases he; exact ⟨_, rfl⟩
  · have hlink := link_eq_linkMid st ps ds ph dh hc1
    have hchar := linkMid_error_char ((st.modifySub ds fun s =>
      { s with ascendants := s.ascendants ++ [ps] }).modifySub ps
        fun s => { s with descendant := some ds }) ph dh
    simp only [State.halo_modifySub] at hchar
    rw [hlink]
    constructor
    · rw [hchar.1]
      constructor
      · intro h; exact Or.inr h
      · rintro (h | h)
        · exact absurd h hc1
        · exact h
    · exact hchar.2

/-- C6 witness: on a concrete state whose parent subhalo already carries a
descendant, `link` fails, and the failure is an `invalid_data` error. -/
theorem c6_witness :
    (∃ e, link c6St 1 2 1 2 = Except.error e) ∧
    (∃ m, (Err.invalid_data ErrMsg.subhaloAlreadyHasDescendant) = Err.invalid_data m) :=
  ⟨(c6_link_invalid_data_conditions c6St 1 2 1 2).1.mpr (Or.inl (by decide)),
   (c6_link_invalid_data_conditions c6St 1 2 1 2).2 _ (by decide)⟩

/-! ### Missing-descendant policy and direct parentage (C7, C8) -/

/-- C7: when a subhalo's claimed descendant subhalo id is not found among
the resolved descendant halo's subhalos, the outcome is governed exactly by
the two policy flags: `skip_missing_descendants = false` fails with
`subhalo_not_found` carrying the missing id; skip with warning enabled
emits a warning and removes the subhalo from its host halo without
aborting; skip with warning disabled removes it silently. -/
theorem c7_missing_descendant_policy (p : ExecutionParameters) (st : State)
    (ids : List HaloId) (h : HaloId) (sh : SubhaloId)
    (hdesc : (st.sub sh).has_descendant = true)
    (hmem : (st.sub sh).descendant_halo_id ∈ ids)
    (hnotfound : (st.all_subhalos ((st.sub sh).descendant_halo_id)).find?
      (fun ds => ds = (st.sub sh).descendant_id) = none) :
    (p.skip_missing_descendants = false →
      processSubhalo p st ids h sh = .fail (.subhalo_not_found (st.sub sh).descendant_id)) ∧
    (p.skip_missing_descendants = true → p.warn_on_missing_descendants = true →
      processSubhalo p st ids h sh = .next (st.remove_subhalo h sh) false true) ∧
    (p.skip_missing_descendants = true → p.warn_on_missing_descendants = false →
      processSubhalo p st ids h sh = .next (st.remove_subhalo h sh) false false) := by
  refine ⟨?_, ?_, ?_⟩
  · intro hskip
    simp [processSubhalo, hdesc, hmem, hnotfound, hskip]
  · intro hskip hwarn
    simp [processSubhalo, hdesc, hmem, hnotfound, hskip, hwarn]
  · intro hskip hwarn
    simp [processSubhalo, hdesc, hmem, hnotfound, hskip, hwarn]

/-- C7 witness: the three policy outcomes on a concrete missing-descendant
state. -/
theorem c7_witness :
    processSubhalo c7pFail c7St [1, 2] 1 1 =
        .fail (.subhalo_not_found (c7St.sub 1).descendant_id) ∧
    processSubhalo c7pWarn c7St [1, 2] 1 1 =
        .next (c7St.remove_subhalo 1 1) false true ∧
    processSubhalo c7pSilent c7St [1, 2] 1 1 =
        .next (c7St.remove_subhalo 1 1) false false :=
  ⟨(c7_missing_descendant_policy c7pFail c7St [1, 2] 1 1 (by decide) (by decide)
      (by decide)).1 (by decide),
   (c7_missing_descendant_policy c7pWarn c7St [1, 2] 1 1 (by decide) (by decide)
      (by decide)).2.1 (by decide) (by decide),
   (c7_missing_descendant_policy c7pSilent c7St [1, 2] 1 1 (by decide) (by decide)
      (by decide)).2.2 (by decide) (by decide)⟩

/-- C8: when the descendant subhalo is found inside the descendant halo,
the link is established only if its snapshot is exactly one greater than
the parent subhalo's, otherwise the run fails with `invalid_data`;
consequently a successful link from this path connects adjacent
snapshots. -/
theorem c8_direct_parentage_only (p : ExecutionParameters) (st : State)
    (ids : List HaloId) (h : HaloId) (sh dsub : SubhaloId)
    (hdesc : (st.sub sh).has_descendant = true)
    (hmem : (st.sub sh).descendant_halo_id ∈ ids)
    (hfound : (st.all_subhalos ((st.sub sh).descendant_halo_id)).find?
      (fun ds => ds = (st.sub sh).descendant_id) = some dsub) :
    ((st.sub sh).snapshot ≠ (st.sub dsub).snapshot - 1 →
      processSubhalo p st ids h sh = .fail (.invalid_data .notDirectDescendant)) ∧
    (∀ st' w, processSubhalo p st ids h sh = .next st' true w →
      (st.sub dsub).snapshot = (st.sub sh).snapshot + 1) := by
  constructor
  · intro hsnap
    simp [processSubhalo, hdesc, hmem, hfound, hsnap]
  · intro st' w heq
    by_cases hsnap : (st.sub sh).snapshot = (st.sub dsub).snapshot - 1
    · omega
    · have hfail : processSubhalo p st ids h sh = .fail (.invalid_data .notDirectDescendant) := by
        simp [processSubhalo, hdesc, hmem, hfound, hsnap]
      rw [hfail] at heq
      cases heq

/-- C8 witness: a concrete non-adjacent claimed descendant aborts with
`invalid_data`. -/
theorem c8_witness :
    processSubhalo c7pFail c8St [1, 2] 1 1 = .fail (.invalid_data .notDirectDescendant) :=
  (c8_direct_parentage_only c7pFail c8St [1, 2] 1 1 7 (by decide) (by decide)
    (by decide)).1 (by decide)

/-! ### Central-subhalo resolution (C1, C9) -/

theorem mem_bucket_entries (st : State) {t : TreeId} {s : Int} {h : HaloId}
    (hm : h ∈ st.bucket t s) :
    ∃ m, (t, m) ∈ st.trees ∧ ∃ l, (s, l) ∈ m ∧ h ∈ l := by
  unfold State.bucket State.treeHalos at hm
  cases h1 : lookupA st.trees t with
  | none => rw [h1] at hm; simp [lookupA] at hm
  | some m =>
    rw [h1] at hm
    simp only [Option.getD_some] at hm
    cases h2 : lookupA m s with
    | none => rw [h2] at hm; simp at hm
    | some l =>
      rw [h2] at hm
      exact ⟨m, lookupA_mem h1, l, lookupA_mem h2, by simpa using hm⟩

theorem foldOE_id {α : Type} (f : State → α → Option (Except Err State)) (l : List α)
    (st : State) (hf : ∀ a ∈ l, f st a = some (.ok st)) : foldOE f l st = some (.ok st) := by
  induction l with
  | nil => rfl
  | cons a l ih =>
    rw [foldOE, hf a (by simp)]
    exact ih (fun a' ha' => hf a' (List.mem_cons_of_mem _ ha'))

theorem checkTreesCentral_nil (st : State) (ts : List TreeId) :
    checkTreesCentral st [] ts = .ok () := by
  induction ts with
  | nil => rfl
  | cons t ts ih => rw [checkTreesCentral, checkSnapshotsCentral, ih]

theorem checkCentralSubhalos_of_lt (st : State) (treeIds : List TreeId)
    (minS maxS : Int) (hlt : minS < maxS) :
    checkCentralSubhalos st treeIds minS maxS = some (.ok ()) := by
  rw [checkCentralSubhalos, ascendingGeLoopSnapshots, if_neg (by omega)]
  dsimp only
  rw [checkTreesCentral_nil]

/-- C1: evaluating the code at the failing input.  The forest `c1St` hosts
two CENTRAL-tagged subhalos in halo 1, yet `define_central_subhalos`
(with `min_snapshot = 0 < 1 = max_snapshot`) returns without raising
`invalid_argument`, because the check loop
`for (snapshot = min_snapshot; snapshot >= max_snapshot; snapshot++)`
executes zero iterations; running the per-halo check body on the resulting
halo shows it would have thrown "more than one central subhalo". -/
theorem c1_central_check_dead_code :
    (define_central_subhalos c1St [0] 1 0 1).map
        (Except.map (fun st' => checkHaloCentral st' 1)) =
      some (.ok (.error (.invalid_argument .moreThanOneCentral))) := by decide

/-- C9: central-subhalo resolution is idempotent — on a forest in which
every halo in every tree bucket already has a central subhalo assigned
(and with `min_snapshot < max_snapshot`, where the trailing check loop runs
zero iterations), `define_central_subhalos` returns the state unchanged,
because every halo with `central_subhalo` set is skipped. -/
theorem c9_define_central_subhalos_idempotent (st : State) (treeIds : List TreeId)
    (fuel : Nat) (minS maxS : Int)
    (hc : ∀ p ∈ st.trees, ∀ q ∈ p.2, ∀ h ∈ q.2, (st.halo h).central_subhalo.isSome = true)
    (hlt : minS < maxS) :
    define_central_subhalos st treeIds fuel minS maxS = some (.ok st) := by
  have hbucket : ∀ t s, ∀ h ∈ st.bucket t s, (st.halo h).central_subhalo.isSome = true := by
    intro t s h hm
    obtain ⟨m, hmem, l, hlmem, hh⟩ := mem_bucket_entries st hm
    exact hc (t, m) hmem (s, l) hlmem h hh
  have hhalo : ∀ t s, ∀ h ∈ st.bucket t s,
      processHaloCentral fuel st h = some (.ok st) := by
    intro t s h hm
    simp [processHaloCentral, hbucket t s h hm]
  have hsnap : ∀ t s, processSnapshotCentral fuel t st s = some (.ok st) := by
    intro t s
    exact foldOE_id _ _ _ (fun h hm => hhalo t s h hm)
  have htree : ∀ t, processTreeCentral fuel minS maxS st t = some (.ok st) := by
    intro t
    exact foldOE_id _ _ _ (fun s _ => hsnap t s)
  have hfold : foldOE (fun st t => processTreeCentral fuel minS maxS st t) treeIds st
      = some (.ok st) :=
    foldOE_id _ _ _ (fun t _ => htree t)
  rw [define_central_subhalos, hfold]
  dsimp only
  rw [checkCentralSubhalos_of_lt st treeIds minS maxS hlt]

/-- C9 witness: a second run on a concrete already-resolved forest returns
the state unchanged. -/
theorem c9_witness : define_central_subhalos c9St [0] 3 0 1 = some (.ok c9St) :=
  c9_define_central_subhalos_idempotent c9St [0] 3 0 1 (by decide) (by decide)

/-! ### Evaluation of successful links -/

theorem linkTail_ok (st : State) (ph dh : HaloId) (b : Bool) (t : TreeId)
    (h3 : (st.halo dh).merger_tree = some t) :
    linkTail st ph dh b =
      (if b then
        .ok (((st.modifyHalo ph (fun H => { H with descendant := some dh })).modifyHalo ph
          (fun H => { H with merger_tree := some t })).add_halo t ph)
      else
        .ok ((st.modifyHalo ph (fun H => { H with descendant := some dh })).modifyHalo ph
          (fun H => { H with merger_tree := some t }))) := by
  rw [linkTail_eq, h3]

theorem linkMid_ok_eval (st : State) (ph dh : HaloId) (t : TreeId)
    (h2 : (st.halo ph).descendant = none ∨ (st.halo ph).descendant = some dh)
    (h3 : (st.halo dh).merger_tree = some t) :
    linkMid st ph dh =
      (let ins := insertUnique (st.halo dh).ascendants ph
       let stB := st.modifyHalo dh (fun H => { H with ascendants := ins.1 })
       let stC := stB.modifyHalo ph (fun H => { H with descendant := some dh })
       let stD := stC.modifyHalo ph (fun H => { H with merger_tree := some t })
       if ins.2 then .ok (stD.add_halo t ph) else .ok stD) := by
  have hdp : ((st.modifyHalo dh fun H =>
      { H with ascendants := (insertUnique (st.halo dh).ascendants ph).1 }).halo ph).descendant
        = (st.halo ph).descendant := by
    by_cases hph : ph = dh <;> simp [hph]
  have hmt : ((st.modifyHalo dh fun H =>
      { H with ascendants := (insertUnique (st.halo dh).ascendants ph).1 }).halo dh).merger_tree
        = some t := by
    simp [h3]
  simp only [linkMid]
  rw [hdp]
  rcases h2 with h2 | h2
  · rw [h2]
    dsimp only
    rw [linkTail_ok _ _ _ _ t hmt]
  · rw [h2]
    dsimp only
    rw [if_neg (not_not_intro rfl)]
    rw [linkTail_ok _ _ _ _ t hmt]

theorem link_eval_ok (st0 : State) (ps ds : SubhaloId) (ph dh : HaloId) (t : TreeId)
    (h1 : (st0.sub ps).descendant = none)
    (h2 : (st0.halo ph).descendant = none ∨ (st0.halo ph).descendant = some dh)
    (h3 : (st0.halo dh).merger_tree = some t) :
    link st0 ps ds ph dh = .ok (linkResult st0 ps ds ph dh t) := by
  have hc1 : ¬ (((st0.sub ps).descendant).isSome = true) := by rw [h1]; simp
  rw [link_eq_linkMid st0 ps ds ph dh hc1]
  rw [linkMid_ok_eval _ ph dh t (by simp only [State.halo_modifySub]; exact h2)
    (by simp only [State.halo_modifySub]; exact h3)]
  simp only [State.halo_modifySub]
  rw [linkResult]
  split <;> rfl

theorem link_ok_inv {st0 st' : State} {ps ds : SubhaloId} {ph dh : HaloId}
    (hok : link st0 ps ds ph dh = .ok st') :
    ∃ t, (st0.sub ps).descendant = none ∧
      ((st0.halo ph).descendant = none ∨ (st0.halo ph).descendant = some dh) ∧
      (st0.halo dh).merger_tree = some t ∧ st' = linkResult st0 ps ds ph dh t := by
  have hc1 : (st0.sub ps).descendant = none := by
    cases hval : (st0.sub ps).descendant with
    | none => rfl
    | some x =>
      rw [link_error_of_subhalo_descendant st0 ps ds ph dh (by rw [hval]; rfl)] at hok
      cases hok
  have hc1' : ¬ (((st0.sub ps).descendant).isSome = true) := by rw [hc1]; simp
  have hmid : linkMid ((st0.modifySub ds fun s =>
      { s with ascendants := s.ascendants ++ [ps] }).modifySub ps
        fun s => { s with descendant := some ds }) ph dh = .ok st' := by
    rw [← link_eq_linkMid st0 ps ds ph dh hc1']
    exact hok
  have hchar := (linkMid_error_char ((st0.modifySub ds fun s =>
      { s with ascendants := s.ascendants ++ [ps] }).modifySub ps
        fun s => { s with descendant := some ds }) ph dh).1
  simp only [State.halo_modifySub] at hchar
  have hne : ¬ ((∃ d, (st0.halo ph).descendant = some d ∧ d ≠ dh) ∨
      (st0.halo dh).merger_tree = none) := by
    rw [← hchar]
    rintro ⟨e, he⟩
    rw [he] at hmid
    cases hmid
  push_neg at hne
  obtain ⟨hne2, hne3⟩ := hne
  have h2 : (st0.halo ph).descendant = none ∨ (st0.halo ph).descendant = some dh := by
    cases hval : (st0.halo ph).descendant with
    | none => exact Or.inl rfl
    | some d =>
      right
      have h' := hne2 d
      rw [hval] at h'
      rw [h' rfl]
  obtain ⟨t, h3⟩ : ∃ t, (st0.halo dh).merger_tree = some t := by
    cases hval : (st0.halo dh).merger_tree with
    | none => exact absurd hval hne3
    | some t => exact ⟨t, rfl⟩
  refine ⟨t, hc1, h2, h3, ?_⟩
  have := link_eval_ok st0 ps ds ph dh t hc1 h2 h3
  rw [this] at hok
  injection hok with hok
  exact hok.symm

theorem linkResult_descendant (st0 : State) (ps ds : SubhaloId) (ph dh : HaloId)
    (t : TreeId) (j : HaloId) :
    ((linkResult st0 ps ds ph dh t).halo j).descendant =
      if j = ph then some dh else (st0.halo j).descendant := by
  rw [linkResult]
  rw [apply_ite (fun (s : State) => ((s.halo j).descendant))]
  simp only [State.halo_add_halo, ite_self]
  by_cases hjp : j = ph
  · subst hjp
    simp
  · by_cases hjd : j = dh
    · subst hjd
      simp [hjp]
    · simp [hjp, hjd]

theorem linkResult_trees (st0 : State) (ps ds : SubhaloId) (ph dh : HaloId) (t : TreeId) :
    (linkResult st0 ps ds ph dh t).trees =
      if (insertUnique (st0.halo dh).ascendants ph).2 then
        upsert st0.trees t (upsert (st0.treeHalos t) (st0.halo ph).snapshot
          ((lookupA (st0.treeHalos t) (st0.halo ph).snapshot).getD [] ++ [ph]))
      else st0.trees := by
  rw [linkResult]
  split
  · by_cases hpd : ph = dh
    · subst hpd
      simp [State.add_halo, State.treeHalos]
    · simp [State.add_halo, State.treeHalos, hpd]
  · rfl

/-! ### Mass-growth enforcement (C4, C10) -/

theorem massOnly_refl (st : State) : MassOnly st st := ⟨rfl, rfl, fun _ => rfl⟩

theorem massOnly_trans {st₁ st₂ st₃ : State} (h12 : MassOnly st₁ st₂)
    (h23 : MassOnly st₂ st₃) : MassOnly st₁ st₃ :=
  ⟨h23.1.trans h12.1, h23.2.1.trans h12.2.1,
   fun j => (h23.2.2 j).trans (h12.2.2 j)⟩

theorem massOnly_descendant {st st' : State} (h : MassOnly st st') (j : HaloId) :
    (st'.halo j).descendant = (st.halo j).descendant := by
  have h2 := congrArg Halo.descendant (h.2.2 j)
  exact h2

theorem massOnly_snapshot {st st' : State} (h : MassOnly st st') (j : HaloId) :
    (st'.halo j).snapshot = (st.halo j).snapshot := by
  have h2 := congrArg Halo.snapshot (h.2.2 j)
  exact h2

theorem bucket_congr {st st' : State} (h : st'.trees = st.trees) (t : TreeId) (s : Int) :
    st'.bucket t s = st.bucket t s := by
  unfold State.bucket State.treeHalos
  rw [h]

theorem massOnly_bucket {st st' : State} (h : MassOnly st st') (t : TreeId) (s : Int) :
    st'.bucket t s = st.bucket t s := bucket_congr h.2.1 t s

theorem shape_set_Mvir (H : Halo) (m : ℚ) : ({ H with Mvir := m } : Halo).shape = H.shape := rfl

theorem massGrowthStep_none {st : State} {h : HaloId}
    (hd : (st.halo h).descendant = none) : massGrowthStep st h = none := by
  rw [massGrowthStep, hd]

theorem massGrowthStep_some {st : State} {h : HaloId} {d : HaloId}
    (hd : (st.halo h).descendant = some d) :
    massGrowthStep st h =
      some (if (st.halo d).Mvir < (st.halo h).Mvir then
        st.modifyHalo d (fun H => { H with Mvir := (st.halo h).Mvir }) else st) := by
  rw [massGrowthStep, hd]
  dsimp only
  split <;> rfl

theorem massGrowthStep_desc {st st' : State} {h : HaloId}
    (hs : massGrowthStep st h = some st') : ∃ d, (st.halo h).descendant = some d := by
  cases hd : (st.halo h).descendant with
  | none => rw [massGrowthStep_none hd] at hs; cases hs
  | some d => exact ⟨d, rfl⟩

theorem massGrowthStep_massOnly {st st' : State} {h : HaloId}
    (hs : massGrowthStep st h = some st') : MassOnly st st' := by
  obtain ⟨d, hd⟩ := massGrowthStep_desc hs
  rw [massGrowthStep_some hd] at hs
  injection hs with hs
  subst hs
  by_cases hlt : (st.halo d).Mvir < (st.halo h).Mvir
  · rw [if_pos hlt]
    refine ⟨rfl, rfl, fun j => ?_⟩
    by_cases hjd : j = d <;> simp [hjd, shape_set_Mvir]
  · rw [if_neg hlt]
    exact massOnly_refl st

theorem massGrowthStep_mono {st st' : State} {h : HaloId}
    (hs : massGrowthStep st h = some st') (j : HaloId) :
    (st.halo j).Mvir ≤ (st'.halo j).Mvir := by
  obtain ⟨d, hd⟩ := massGrowthStep_desc hs
  rw [massGrowthStep_some hd] at hs
  injection hs with hs
  subst hs
  by_cases hlt : (st.halo d).Mvir < (st.halo h).Mvir
  · rw [if_pos hlt]
    by_cases hjd : j = d
    · subst hjd
      simp [le_of_lt hlt]
    · simp [hjd]
  · rw [if_neg hlt]

theorem massGrowthStep_frame {st st' : State} {h : HaloId}
    (hs : massGrowthStep st h = some st') (j : HaloId)
    (hj : (st.halo h).descendant ≠ some j) :
    (st'.halo j).Mvir = (st.halo j).Mvir := by
  obtain ⟨d, hd⟩ := massGrowthStep_desc hs
  rw [massGrowthStep_some hd] at hs
  injection hs with hs
  subst hs
  have hjd : j ≠ d := by
    intro hdj; rw [hd, hdj] at hj; exact hj rfl
  by_cases hlt : (st.halo d).Mvir < (st.halo h).Mvir
  · rw [if_pos hlt]
    simp [hjd]
  · rw [if_neg hlt]

theorem massGrowthStep_establish {st st' : State} {h d : HaloId}
    (hs : massGrowthStep st h = some st')
    (hd : (st.halo h).descendant = some d)
    (hne : (st.halo h).snapshot ≠ (st.halo d).snapshot) :
    (st'.halo h).Mvir ≤ (st'.halo d).Mvir := by
  have hhd : h ≠ d := fun he => hne (by rw [he])
  rw [massGrowthStep_some hd] at hs
  injection hs with hs
  subst hs
  by_cases hlt : (st.halo d).Mvir < (st.halo h).Mvir
  · rw [if_pos hlt]
    simp [hhd]
  · rw [if_neg hlt]
    exact not_lt.mp hlt

theorem massGrowthHalos_spec (s : Int) :
    ∀ (l : List HaloId) (st : State),
      (∀ h ∈ l, (st.halo h).snapshot = s) →
      (∀ h ∈ l, ∃ d, (st.halo h).descendant = some d ∧ (st.halo d).snapshot = s + 1) →
      ∃ st', massGrowthHalos l st = some st' ∧ MassOnly st st' ∧
        (∀ j, (st.halo j).Mvir ≤ (st'.halo j).Mvir) ∧
        (∀ j, (st.halo j).snapshot ≠ s + 1 → (st'.halo j).Mvir = (st.halo j).Mvir) ∧
        (∀ j, (∀ h ∈ l, (st.halo h).descendant ≠ some j) →
          (st'.halo j).Mvir = (st.halo j).Mvir) ∧
        (∀ h ∈ l, ∀ d, (st.halo h).descendant = some d →
          (st'.halo h).Mvir ≤ (st'.halo d).Mvir) := by
  intro l
  induction l with
  | nil =>
    intro st _ _
    exact ⟨st, rfl, massOnly_refl st, fun j => le_refl _, fun j _ => rfl, fun j _ => rfl,
      by simp⟩
  | cons h rest ih =>
    intro st hsnap hdesc
    obtain ⟨d, hd, hds⟩ := hdesc h (by simp)
    have hstep : massGrowthStep st h =
        some (if (st.halo d).Mvir < (st.halo h).Mvir then
          st.modifyHalo d (fun H => { H with Mvir := (st.halo h).Mvir }) else st) :=
      massGrowthStep_some hd
    obtain ⟨st1, hstep⟩ : ∃ st1, massGrowthStep st h = some st1 := ⟨_, hstep⟩
    have hmo1 : MassOnly st st1 := massGrowthStep_massOnly hstep
    have hmono1 := massGrowthStep_mono hstep
    have hest1 : (st1.halo h).Mvir ≤ (st1.halo d).Mvir :=
      massGrowthStep_establish hstep hd (by rw [hsnap h (by simp), hds]; omega)
    have hsnap1 : ∀ h' ∈ rest, (st1.halo h').snapshot = s := by
      intro h' hm
      rw [massOnly_snapshot hmo1]
      exact hsnap h' (by simp [hm])
    have hdesc1 : ∀ h' ∈ rest, ∃ d', (st1.halo h').descendant = some d' ∧
        (st1.halo d').snapshot = s + 1 := by
      intro h' hm
      obtain ⟨d', hd', hds'⟩ := hdesc h' (by simp [hm])
      refine ⟨d', ?_, ?_⟩
      · rw [massOnly_descendant hmo1]; exact hd'
      · rw [massOnly_snapshot hmo1]; exact hds'
    obtain ⟨st', hrun, hmo2, hmono2, hframe2, hframeB2, hest2⟩ := ih st1 hsnap1 hdesc1
    refine ⟨st', ?_, massOnly_trans hmo1 hmo2, ?_, ?_, ?_, ?_⟩
    · rw [massGrowthHalos, hstep]
      exact hrun
    · intro j
      exact le_trans (hmono1 j) (hmono2 j)
    · intro j hj
      have hj1 : (st1.halo j).snapshot ≠ s + 1 := by
        rw [massOnly_snapshot hmo1]; exact hj
      rw [hframe2 j hj1]
      apply massGrowthStep_frame hstep j
      rw [hd]
      intro hcon
      injection hcon with hcon
      exact hj (hcon ▸ hds)
    · intro j hj
      have hj1 : ∀ h' ∈ rest, (st1.halo h').descendant ≠ some j := by
        intro h' hm
        rw [massOnly_descendant hmo1]
        exact hj h' (by simp [hm])
      rw [hframeB2 j hj1]
      exact massGrowthStep_frame hstep j (hj h (by simp))
    · intro h₀ hm d₀ hd₀
      rcases List.mem_cons.mp hm with rfl | hm'
      · rw [hd] at hd₀
        injection hd₀ with he
        subst he
        have hh : (st'.halo h₀).Mvir = (st1.halo h₀).Mvir := by
          apply hframe2 h₀
          rw [massOnly_snapshot hmo1, hsnap h₀ (by simp)]
          omega
        rw [hh]
        exact le_trans hest1 (hmono2 d)
      · have hd₁ : (st1.halo h₀).descendant = some d₀ := by
          rw [massOnly_descendant hmo1]; exact hd₀
        exact hest2 h₀ hm' d₀ hd₁

theorem mem_snapRange : ∀ (n : Nat) (s u : Int), u ∈ snapRange s n ↔ s ≤ u ∧ u < s + n := by
  intro n
  induction n with
  | zero =>
    intro s u
    simp only [snapRange, List.not_mem_nil, false_iff]
    omega
  | succ n ih =>
    intro s u
    rw [snapRange, List.mem_cons, ih (s + 1) u]
    omega

theorem massGrowthSnapshots_spec (t : TreeId) :
    ∀ (n : Nat) (s : Int) (st : State),
      (∀ u : Int, ∀ h ∈ st.bucket t u, (st.halo h).snapshot = u) →
      (∀ u : Int, s ≤ u → u < s + n → ∀ h ∈ st.bucket t u,
        ∃ d, (st.halo h).descendant = some d ∧ d ∈ st.bucket t (u + 1)) →
      ∃ st', massGrowthSnapshots t (snapRange s n) st = some st' ∧ MassOnly st st' ∧
        (∀ j, (st.halo j).Mvir ≤ (st'.halo j).Mvir) ∧
        (∀ j, ((st.halo j).snapshot ≤ s ∨ s + n < (st.halo j).snapshot) →
          (st'.halo j).Mvir = (st.halo j).Mvir) ∧
        (∀ j, (∀ u : Int, s ≤ u → u < s + n → ∀ h ∈ st.bucket t u,
            (st.halo h).descendant ≠ some j) → (st'.halo j).Mvir = (st.halo j).Mvir) ∧
        (∀ u : Int, s ≤ u → u < s + n → ∀ h ∈ st.bucket t u, ∀ d,
          (st.halo h).descendant = some d → (st'.halo h).Mvir ≤ (st'.halo d).Mvir) := by
  intro n
  induction n with
  | zero =>
    intro s st _ _
    refine ⟨st, rfl, massOnly_refl st, fun j => le_refl _, fun j _ => rfl, fun j _ => rfl,
      ?_⟩
    intro u hu1 hu2
    omega
  | succ n ih =>
    intro s st H1 H3
    have hbsnap : ∀ h ∈ st.bucket t s, (st.halo h).snapshot = s := fun h hm => H1 s h hm
    have hbdesc : ∀ h ∈ st.bucket t s, ∃ d, (st.halo h).descendant = some d ∧
        (st.halo d).snapshot = s + 1 := by
      intro h hm
      obtain ⟨d, hd, hdm⟩ := H3 s (le_refl s) (by omega) h hm
      exact ⟨d, hd, H1 (s + 1) d hdm⟩
    obtain ⟨st1, hrun1, hmo1, hmono1, hfs1, hfb1, hest1⟩ :=
      massGrowthHalos_spec s (st.bucket t s) st hbsnap hbdesc
    have hbe : ∀ u, st1.bucket t u = st.bucket t u := fun u => massOnly_bucket hmo1 t u
    have H1' : ∀ u : Int, ∀ h ∈ st1.bucket t u, (st1.halo h).snapshot = u := by
      intro u h hm
      rw [massOnly_snapshot hmo1]
      exact H1 u h (by rw [hbe u] at hm; exact hm)
    have H3' : ∀ u : Int, s + 1 ≤ u → u < s + 1 + n → ∀ h ∈ st1.bucket t u,
        ∃ d, (st1.halo h).descendant = some d ∧ d ∈ st1.bucket t (u + 1) := by
      intro u hu1 hu2 h hm
      rw [hbe u] at hm
      obtain ⟨d, hd, hdm⟩ := H3 u (by omega) (by omega) h hm
      refine ⟨d, ?_, ?_⟩
      · rw [massOnly_descendant hmo1]; exact hd
      · rw [hbe (u + 1)]; exact hdm
    obtain ⟨st', hrun2, hmo2, hmono2, hfs2, hfb2, hest2⟩ := ih (s + 1) st1 H1' H3'
    have hrun : massGrowthSnapshots t (snapRange s (n + 1)) st = some st' := by
      rw [snapRange, massGrowthSnapshots, massGrowthSnapshot, hrun1]
      exact hrun2
    refine ⟨st', hrun, massOnly_trans hmo1 hmo2, ?_, ?_, ?_, ?_⟩
    · intro j
      exact le_trans (hmono1 j) (hmono2 j)
    · intro j hj
      have h1 : (st1.halo j).Mvir = (st.halo j).Mvir := hfs1 j (by omega)
      have h2 : (st'.halo j).Mvir = (st1.halo j).Mvir := by
        apply hfs2 j
        rw [massOnly_snapshot hmo1]
        omega
      rw [h2, h1]
    · intro j hj
      have h1 : (st1.halo j).Mvir = (st.halo j).Mvir := by
        apply hfb1 j
        intro h hm
        exact hj s (le_refl s) (by omega) h hm
      have h2 : (st'.halo j).Mvir = (st1.halo j).Mvir := by
        apply hfb2 j
        intro u hu1 hu2 h hm
        rw [hbe u] at hm
        rw [massOnly_descendant hmo1]
        exact hj u (by omega) (by omega) h hm
      rw [h2, h1]
    · intro u hu1 hu2 h hm d hd
      by_cases hus : u = s
      · subst hus
        obtain ⟨d', hd', hdm'⟩ := H3 u (le_refl u) (by omega) h hm
        rw [hd] at hd'
        injection hd' with he
        subst he
        have hh : (st'.halo h).Mvir = (st1.halo h).Mvir := by
          apply hfs2 h
          rw [massOnly_snapshot hmo1, H1 u h hm]
          omega
        have hdd : (st'.halo d).Mvir = (st1.halo d).Mvir := by
          apply hfs2 d
          rw [massOnly_snapshot hmo1, H1 (u + 1) d hdm']
          omega
        rw [hh, hdd]
        exact hest1 h hm d hd
      · have hd1 : (st1.halo h).descendant = some d := by
          rw [massOnly_descendant hmo1]; exact hd
        exact hest2 u (by omega) (by omega) h (by rw [hbe u]; exact hm) d hd1

theorem massGrowthTree_spec (minS maxS : Int) (t : TreeId) (st : State)
    (H1 : ∀ u : Int, ∀ h ∈ st.bucket t u, (st.halo h).snapshot = u)
    (H3 : ∀ u : Int, minS ≤ u → u < maxS → ∀ h ∈ st.bucket t u,
      ∃ d, (st.halo h).descendant = some d ∧ d ∈ st.bucket t (u + 1)) :
    ∃ st', massGrowthTree minS maxS st t = some st' ∧ MassOnly st st' ∧
      (∀ j, (st.halo j).Mvir ≤ (st'.halo j).Mvir) ∧
      (∀ j, (∀ u : Int, minS ≤ u → u < maxS → ∀ h ∈ st.bucket t u,
        (st.halo h).descendant ≠ some j) → (st'.halo j).Mvir = (st.halo j).Mvir) ∧
      (∀ u : Int, minS ≤ u → u < maxS → ∀ h ∈ st.bucket t u, ∀ d,
        (st.halo h).descendant = some d → (st'.halo h).Mvir ≤ (st'.halo d).Mvir) := by
  obtain ⟨st', hrun, hmo, hmono, _, hfb, hest⟩ :=
    massGrowthSnapshots_spec t (maxS - minS).toNat minS st H1 (by
      intro u hu1 hu2 h hm
      exact H3 u hu1 (by omega) h hm)
  refine ⟨st', hrun, hmo, hmono, ?_, ?_⟩
  · intro j hj
    apply hfb j
    intro u hu1 hu2 h hm
    exact hj u hu1 (by omega) h hm
  · intro u hu1 hu2 h hm d hd
    exact hest u hu1 (by omega) h hm d hd

theorem massGrowthTrees_spec (minS maxS : Int) :
    ∀ (L : List TreeId) (st : State),
      (∀ t ∈ L, ∀ u : Int, ∀ h ∈ st.bucket t u, (st.halo h).snapshot = u) →
      (∀ t ∈ L, ∀ u : Int, minS ≤ u → u < maxS → ∀ h ∈ st.bucket t u,
        ∃ d, (st.halo h).descendant = some d ∧ d ∈ st.bucket t (u + 1)) →
      (∀ t ∈ L, ∀ t' ∈ L, t ≠ t' → ∀ (u u' : Int) (h : HaloId),
        h ∈ st.bucket t u → h ∉ st.bucket t' u') →
      ∃ st', massGrowthTrees minS maxS L st = some st' ∧ MassOnly st st' ∧
        (∀ j, (st.halo j).Mvir ≤ (st'.halo j).Mvir) ∧
        (∀ j, (∀ t ∈ L, ∀ u : Int, minS ≤ u → u < maxS → ∀ h ∈ st.bucket t u,
          (st.halo h).descendant ≠ some j) → (st'.halo j).Mvir = (st.halo j).Mvir) ∧
        (∀ t ∈ L, ∀ u : Int, minS ≤ u → u < maxS → ∀ h ∈ st.bucket t u, ∀ d,
          (st.halo h).descendant = some d → (st'.halo h).Mvir ≤ (st'.halo d).Mvir) := by
  intro L
  induction L with
  | nil =>
    intro st _ _ _
    exact ⟨st, rfl, massOnly_refl st, fun j => le_refl _, fun j _ => rfl, by simp⟩
  | cons t L' ih =>
    intro st H1 H3 HD
    obtain ⟨st1, hrun1, hmo1, hmono1, hfb1, hest1⟩ :=
      massGrowthTree_spec minS maxS t st (H1 t (by simp)) (H3 t (by simp))
    have hbe : ∀ t₀ u, st1.bucket t₀ u = st.bucket t₀ u :=
      fun t₀ u => massOnly_bucket hmo1 t₀ u
    have H1' : ∀ t₀ ∈ L', ∀ u : Int, ∀ h ∈ st1.bucket t₀ u, (st1.halo h).snapshot = u := by
      intro t₀ hm u h hh
      rw [massOnly_snapshot hmo1]
      exact H1 t₀ (by simp [hm]) u h (by rw [hbe t₀ u] at hh; exact hh)
    have H3' : ∀ t₀ ∈ L', ∀ u : Int, minS ≤ u → u < maxS → ∀ h ∈ st1.bucket t₀ u,
        ∃ d, (st1.halo h).descendant = some d ∧ d ∈ st1.bucket t₀ (u + 1) := by
      intro t₀ hm u hu1 hu2 h hh
      rw [hbe t₀ u] at hh
      obtain ⟨d, hd, hdm⟩ := H3 t₀ (by simp [hm]) u hu1 hu2 h hh
      refine ⟨d, ?_, ?_⟩
      · rw [massOnly_descendant hmo1]; exact hd
      · rw [hbe t₀ (u + 1)]; exact hdm
    have HD' : ∀ t₀ ∈ L', ∀ t₁ ∈ L', t₀ ≠ t₁ → ∀ (u u' : Int) (h : HaloId),
        h ∈ st1.bucket t₀ u → h ∉ st1.bucket t₁ u' := by
      intro t₀ hm0 t₁ hm1 hne u u' h hh
      rw [hbe t₀ u] at hh
      rw [hbe t₁ u']
      exact HD t₀ (by simp [hm0]) t₁ (by simp [hm1]) hne u u' h hh
    obtain ⟨st', hrun2, hmo2, hmono2, hfb2, hest2⟩ := ih st1 H1' H3' HD'
    have hrun : massGrowthTrees minS maxS (t :: L') st = some st' := by
      rw [massGrowthTrees, hrun1]
      exact hrun2
    refine ⟨st', hrun, massOnly_trans hmo1 hmo2, ?_, ?_, ?_⟩
    · intro j
      exact le_trans (hmono1 j) (hmono2 j)
    · intro j hj
      have h2 : (st'.halo j).Mvir = (st1.halo j).Mvir := by
        apply hfb2 j
        intro t₀ hm u hu1 hu2 h hh
        rw [hbe t₀ u] at hh
        rw [massOnly_descendant hmo1]
        exact hj t₀ (by simp [hm]) u hu1 hu2 h hh
      have h1 : (st1.halo j).Mvir = (st.halo j).Mvir := by
        apply hfb1 j
        intro u hu1 hu2 h hh
        exact hj t (by simp) u hu1 hu2 h hh
      rw [h2, h1]
    · intro t₀ hmem u hu1 hu2 h hh d hd
      by_cases hmem' : t₀ ∈ L'
      · have hd1 : (st1.halo h).descendant = some d := by
          rw [massOnly_descendant hmo1]; exact hd
        exact hest2 t₀ hmem' u hu1 hu2 h (by rw [hbe t₀ u]; exact hh) d hd1
      · have ht0 : t₀ = t := by
          rcases List.mem_cons.mp hmem with h' | h'
          · exact h'
          · exact absurd h' hmem'
        subst ht0
        have hdm : d ∈ st.bucket t₀ (u + 1) := by
          obtain ⟨d', hd', hdm'⟩ := H3 t₀ (by simp) u hu1 hu2 h hh
          rw [hd] at hd'
          injection hd' with he
          rw [← he] at hdm'
          exact hdm'
        have huntouched : ∀ (j : HaloId) (uj : Int), j ∈ st.bucket t₀ uj →
            (st'.halo j).Mvir = (st1.halo j).Mvir := by
          intro j uj hj
          apply hfb2 j
          intro t₁ hm1 u₁ hu₁ hu₂ g hg
          rw [hbe t₁ u₁] at hg
          rw [massOnly_descendant hmo1]
          intro hcon
          obtain ⟨d₁, hd₁, hdm₁⟩ := H3 t₁ (by simp [hm1]) u₁ hu₁ hu₂ g hg
          rw [hcon] at hd₁
          injection hd₁ with he₁
          rw [← he₁] at hdm₁
          have hne : t₀ ≠ t₁ := fun hEq => hmem' (hEq ▸ hm1)
          exact HD t₀ (by simp) t₁ (by simp [hm1]) hne uj (u₁ + 1) j hj hdm₁
        have hh' : (st'.halo h).Mvir = (st1.halo h).Mvir := huntouched h u hh
        have hd' : (st'.halo d).Mvir = (st1.halo d).Mvir := huntouched d (u + 1) hdm
        rw [hh', hd']
        exact hest1 u hu1 hu2 h hh d hd

theorem massGrowthHalos_isSome :
    ∀ (l : List HaloId) (st : State),
      (∀ h ∈ l, ((st.halo h).descendant).isSome = true) →
      ∃ st', massGrowthHalos l st = some st' ∧ MassOnly st st' := by
  intro l
  induction l with
  | nil => intro st _; exact ⟨st, rfl, massOnly_refl st⟩
  | cons h rest ih =>
    intro st hl
    obtain ⟨d, hd⟩ := Option.isSome_iff_exists.mp (hl h (by simp))
    obtain ⟨st1, hstep⟩ : ∃ st1, massGrowthStep st h = some st1 := ⟨_, massGrowthStep_some hd⟩
    have hmo1 := massGrowthStep_massOnly hstep
    obtain ⟨st', hrun, hmo2⟩ := ih st1 (fun h' hm => by
      rw [massOnly_descendant hmo1]; exact hl h' (by simp [hm]))
    refine ⟨st', ?_, massOnly_trans hmo1 hmo2⟩
    rw [massGrowthHalos, hstep]
    exact hrun

theorem massGrowthSnapshots_isSome (t : TreeId) :
    ∀ (ss : List Int) (st : State),
      (∀ u ∈ ss, ∀ h ∈ st.bucket t u, ((st.halo h).descendant).isSome = true) →
      ∃ st', massGrowthSnapshots t ss st = some st' ∧ MassOnly st st' := by
  intro ss
  induction ss with
  | nil => intro st _; exact ⟨st, rfl, massOnly_refl st⟩
  | cons s ss ih =>
    intro st hs
    obtain ⟨st1, hrun1, hmo1⟩ :=
      massGrowthHalos_isSome (st.bucket t s) st (fun h hm => hs s (by simp) h hm)
    obtain ⟨st', hrun2, hmo2⟩ := ih st1 (by
      intro u hu h hm
      rw [massOnly_bucket hmo1 t u] at hm
      rw [massOnly_descendant hmo1]
      exact hs u (by simp [hu]) h hm)
    refine ⟨st', ?_, massOnly_trans hmo1 hmo2⟩
    rw [massGrowthSnapshots, massGrowthSnapshot, hrun1]
    exact hrun2

theorem massGrowthTrees_isSome (minS maxS : Int) :
    ∀ (L : List TreeId) (st : State),
      (∀ t ∈ L, ∀ u ∈ snapRange minS (maxS - minS).toNat, ∀ h ∈ st.bucket t u,
        ((st.halo h).descendant).isSome = true) →
      ∃ st', massGrowthTrees minS maxS L st = some st' ∧ MassOnly st st' := by
  intro L
  induction L with
  | nil => intro st _; exact ⟨st, rfl, massOnly_refl st⟩
  | cons t L' ih =>
    intro st hL
    obtain ⟨st1, hrun1, hmo1⟩ :=
      massGrowthSnapshots_isSome t (snapRange minS (maxS - minS).toNat) st
        (fun u hu h hm => hL t (by simp) u hu h hm)
    obtain ⟨st', hrun2, hmo2⟩ := ih st1 (by
      intro t₀ hm0 u hu h hm
      rw [massOnly_bucket hmo1 t₀ u] at hm
      rw [massOnly_descendant hmo1]
      exact hL t₀ (by simp [hm0]) u hu h hm)
    refine ⟨st', ?_, massOnly_trans hmo1 hmo2⟩
    rw [massGrowthTrees, massGrowthTree, hrun1]
    exact hrun2

/-- C10 (implicit): after linking, every halo in a tree bucket at a
snapshot strictly below `max_snapshot` has a non-null descendant — `link`
assigns the parent halo's descendant before adding it to a bucket, so the
invariant is preserved by every successful link; and under the invariant
the mass-growth pass, which dereferences `halo->descendant` without a null
guard, runs to completion. -/
theorem c10_bucket_descendant_invariant :
    (∀ (st st' : State) (ps ds : SubhaloId) (ph dh : HaloId) (maxS : Int),
      DescInv maxS st → link st ps ds ph dh = .ok st' → DescInv maxS st') ∧
    (∀ (st : State) (treeIds : List TreeId) (minS maxS : Int),
      DescInv maxS st →
        (ensure_halo_mass_growth st treeIds minS maxS).isSome = true) := by
  constructor
  · intro st st' ps ds ph dh maxS hinv hok
    obtain ⟨t, h1, h2, h3, hst'⟩ := link_ok_inv hok
    subst hst'
    intro p hp q hq hql h hh
    rw [linkResult_descendant]
    by_cases hjp : h = ph
    · rw [if_pos hjp]
      rfl
    · rw [if_neg hjp]
      rw [linkResult_trees] at hp
      have hmem : ∃ p₀ ∈ st.trees, ∃ q₀ ∈ p₀.2, q₀.1 < maxS ∧ h ∈ q₀.2 := by
        by_cases hc : (insertUnique (st.halo dh).ascendants ph).2 = true
        · rw [if_pos hc] at hp
          rcases mem_upsert hp with hp' | hp'
          · exact ⟨p, hp', q, hq, hql, hh⟩
          · subst hp'
            rcases mem_upsert hq with hq' | hq'
            · cases hm : lookupA st.trees t with
              | none =>
                rw [State.treeHalos, hm] at hq'
                simp at hq'
              | some m =>
                rw [State.treeHalos, hm] at hq'
                simp only [Option.getD_some] at hq'
                exact ⟨(t, m), lookupA_mem hm, q, hq', hql, hh⟩
            · subst hq'
              simp only at hql hh
              rcases List.mem_append.mp hh with hh' | hh'
              · cases hm : lookupA st.trees t with
                | none =>
                  rw [State.treeHalos, hm] at hh'
                  simp [lookupA] at hh'
                | some m =>
                  rw [State.treeHalos, hm] at hh'
                  simp only [Option.getD_some] at hh'
                  cases hl : lookupA m (st.halo ph).snapshot with
                  | none => rw [hl] at hh'; simp at hh'
                  | some l =>
                    rw [hl] at hh'
                    simp only [Option.getD_some] at hh'
                    exact ⟨(t, m), lookupA_mem hm, ((st.halo ph).snapshot, l),
                      lookupA_mem hl, hql, hh'⟩
              · exact absurd (by simpa using hh') hjp
        · rw [if_neg hc] at hp
          exact ⟨p, hp, q, hq, hql, hh⟩
      obtain ⟨p₀, hp₀, q₀, hq₀, hql₀, hh₀⟩ := hmem
      exact hinv p₀ hp₀ q₀ hq₀ hql₀ h hh₀
  · intro st treeIds minS maxS hinv
    obtain ⟨st', hrun, -⟩ := massGrowthTrees_isSome minS maxS treeIds st (by
      intro t _ u hu h hh
      rw [mem_snapRange] at hu
      obtain ⟨m, hm, l, hl, hhl⟩ := mem_bucket_entries st hh
      exact hinv (t, m) hm (u, l) hl (by omega) h hhl)
    rw [ensure_halo_mass_growth, hrun]
    rfl

/-- C10 witness: the invariant survives a concrete link, and the
mass-growth pass succeeds on a concrete three-snapshot chain. -/
theorem c10_witness :
    DescInv 1 (linkResult c5St 1 2 1 2 0) ∧
    (ensure_halo_mass_growth c4St [0] 0 2).isSome = true :=
  ⟨c10_bucket_descendant_invariant.1 c5St (linkResult c5St 1 2 1 2 0) 1 2 1 2 1
      (by unfold DescInv; decide) (by decide),
   c10_bucket_descendant_invariant.2 c4St [0] 0 2 (by unfold DescInv; decide)⟩

/-- C4: if `ensure_mass_growth` is enabled, then after the pass every halo
(in a bucket at a processed snapshot) with a descendant satisfies
`halo.Mvir <= descendant.Mvir`; the pass only ever raises descendant
masses, walking snapshots in ascending order within each tree.  Hypotheses:
bucket snapshots are consistent, each processed halo's descendant sits in
the same tree's next-snapshot bucket, and distinct trees share no
halos. -/
theorem c4_mass_growth_monotone (st : State) (treeIds : List TreeId) (minS maxS : Int)
    (hsnap : ∀ p ∈ st.trees, ∀ q ∈ p.2, ∀ h ∈ q.2, (st.halo h).snapshot = q.1)
    (hdesc : ∀ p ∈ st.trees, ∀ q ∈ p.2, minS ≤ q.1 → q.1 < maxS → ∀ h ∈ q.2,
      ∃ d ∈ ((st.halo h).descendant).toList, d ∈ st.bucket p.1 (q.1 + 1))
    (hdisj : ∀ p ∈ st.trees, ∀ p' ∈ st.trees, p.1 ≠ p'.1 → ∀ q ∈ p.2, ∀ h ∈ q.2,
      ∀ q' ∈ p'.2, h ∉ q'.2) :
    ∃ st', ensure_halo_mass_growth st treeIds minS maxS = some st' ∧ MassOnly st st' ∧
      ∀ t ∈ treeIds, ∀ u : Int, minS ≤ u → u < maxS → ∀ h ∈ st.bucket t u, ∀ d,
        (st.halo h).descendant = some d → (st'.halo h).Mvir ≤ (st'.halo d).Mvir := by
  have H1 : ∀ t ∈ treeIds, ∀ u : Int, ∀ h ∈ st.bucket t u, (st.halo h).snapshot = u := by
    intro t _ u h hh
    obtain ⟨m, hm, l, hl, hhl⟩ := mem_bucket_entries st hh
    exact hsnap (t, m) hm (u, l) hl h hhl
  have H3 : ∀ t ∈ treeIds, ∀ u : Int, minS ≤ u → u < maxS → ∀ h ∈ st.bucket t u,
      ∃ d, (st.halo h).descendant = some d ∧ d ∈ st.bucket t (u + 1) := by
    intro t _ u hu1 hu2 h hh
    obtain ⟨m, hm, l, hl, hhl⟩ := mem_bucket_entries st hh
    obtain ⟨d, hdt, hdm⟩ := hdesc (t, m) hm (u, l) hl hu1 hu2 h hhl
    rw [Option.mem_toList, Option.mem_def] at hdt
    exact ⟨d, hdt, hdm⟩
  have HD : ∀ t ∈ treeIds, ∀ t' ∈ treeIds, t ≠ t' → ∀ (u u' : Int) (h : HaloId),
      h ∈ st.bucket t u → h ∉ st.bucket t' u' := by
    intro t _ t' _ hne u u' h hh hcon
    obtain ⟨m, hm, l, hl, hhl⟩ := mem_bucket_entries st hh
    obtain ⟨m', hm', l', hl', hhl'⟩ := mem_bucket_entries st hcon
    exact hdisj (t, m) hm (t', m') hm' hne (u, l) hl h hhl (u', l') hl' hhl'
  obtain ⟨st', hrun, hmo, _, _, hest⟩ := massGrowthTrees_spec minS maxS treeIds st H1 H3 HD
  exact ⟨st', hrun, hmo, hest⟩

/-- C4 witness: Scenario D — a three-snapshot chain where the middle halo
(mass 10) exceeds its descendant (mass 4); the pass succeeds and leaves
every descendant at least as massive as its progenitor. -/
theorem c4_witness :
    ∃ st', ensure_halo_mass_growth c4St [0] 0 2 = some st' ∧ MassOnly c4St st' ∧
      ∀ t ∈ [0], ∀ u : Int, (0 : Int) ≤ u → u < 2 → ∀ h ∈ c4St.bucket t u, ∀ d,
        (c4St.halo h).descendant = some d → (st'.halo h).Mvir ≤ (st'.halo d).Mvir :=
  c4_mass_growth_monotone c4St [0] 0 2 (by decide) (by decide) (by decide)

/-! ### Key- and occurrence-count lemmas for the forest invariant (C5) -/

theorem lookupA_eq_none {κ α : Type} [DecidableEq κ] {l : List (κ × α)} {k : κ}
    (h : k ∉ l.map Prod.fst) : lookupA l k = none := by
  induction l with
  | nil => rfl
  | cons p rest ih =>
    obtain ⟨k₀, v₀⟩ := p
    simp only [List.map_cons, List.mem_cons] at h
    push_neg at h
    rw [lookupA, if_neg h.1]
    exact ih h.2

theorem mem_keys_of_lookupA {κ α : Type} [DecidableEq κ] {l : List (κ × α)} {k : κ} {v : α}
    (h : lookupA l k = some v) : k ∈ l.map Prod.fst :=
  List.mem_map.mpr ⟨(k, v), lookupA_mem h, rfl⟩

theorem mem_keys_upsert {κ α : Type} [DecidableEq κ] (l : List (κ × α)) (k : κ) (v : α)
    (i : κ) : i ∈ (upsert l k v).map Prod.fst ↔ i ∈ l.map Prod.fst ∨ i = k := by
  induction l with
  | nil => simp [upsert]
  | cons p rest ih =>
    obtain ⟨k₀, v₀⟩ := p
    by_cases hk : k = k₀
    · subst hk
      simp only [upsert, if_pos rfl, if_true, List.map_cons, List.mem_cons]
      tauto
    · simp only [upsert, if_neg hk, List.map_cons, List.mem_cons, ih]
      tauto

theorem halo_default_of_not_mem {st : State} {i : HaloId}
    (h : i ∉ st.halos.map Prod.fst) : st.halo i = {} := by
  rw [State.halo, lookupA_eq_none h]
  rfl

theorem lookupA_halo_of_mem {st : State} {i : HaloId}
    (h : st.halo i ≠ ({} : Halo)) : lookupA st.halos i = some (st.halo i) := by
  cases hl : lookupA st.halos i with
  | none =>
    exfalso
    apply h
    rw [State.halo, hl]
    rfl
  | some v =>
    rw [State.halo, hl]
    rfl

theorem sum_upsert_weight {κ β : Type} [DecidableEq κ] (w : β → Nat) (d : β) (hd : w d = 0) :
    ∀ (l : List (κ × β)) (k : κ) (v : β),
      ((upsert l k v).map (fun p => w p.2)).sum + w ((lookupA l k).getD d)
        = (l.map (fun p => w p.2)).sum + w v := by
  intro l
  induction l with
  | nil =>
    intro k v
    simp [upsert, lookupA, hd]
  | cons p rest ih =>
    intro k v
    obtain ⟨k₀, v₀⟩ := p
    by_cases hk : k = k₀
    · subst hk
      simp only [upsert, if_pos rfl, if_true, lookupA, List.map_cons, List.sum_cons,
        Option.getD_some]
      omega
    · simp only [upsert, if_neg hk, lookupA, List.map_cons, List.sum_cons]
      have h' := ih k v
      omega

theorem occ_add_halo (st : State) (t : TreeId) (i : HaloId) (x : HaloId) :
    (st.add_halo t i).occ x = st.occ x + (if x = i then 1 else 0) := by
  have h1 := sum_upsert_weight (fun (m : List (Int × List HaloId)) => bucketOcc m x) [] rfl
    st.trees t (upsert (st.treeHalos t) (st.halo i).snapshot
      ((lookupA (st.treeHalos t) (st.halo i).snapshot).getD [] ++ [i]))
  have h2 := sum_upsert_weight (fun (l : List HaloId) => l.count x) [] rfl
    (st.treeHalos t) (st.halo i).snapshot
    ((lookupA (st.treeHalos t) (st.halo i).snapshot).getD [] ++ [i])
  have hcnt : (((lookupA (st.treeHalos t) (st.halo i).snapshot).getD []) ++ [i]).count x
      = ((lookupA (st.treeHalos t) (st.halo i).snapshot).getD []).count x
        + (if x = i then 1 else 0) := by
    rw [List.count_append]
    by_cases hxi : x = i
    · subst hxi
      simp
    · simp [List.count_singleton', hxi]
  have hgoal : (st.add_halo t i).occ x =
      ((upsert st.trees t (upsert (st.treeHalos t) (st.halo i).snapshot
        ((lookupA (st.treeHalos t) (st.halo i).snapshot).getD [] ++ [i]))).map
          (fun p => bucketOcc p.2 x)).sum := by
    rw [State.add_halo, State.occ]
  have hocc : st.occ x = (st.trees.map (fun p => bucketOcc p.2 x)).sum := rfl
  have htw : st.treeHalos t = (lookupA st.trees t).getD [] := rfl
  rw [hgoal, hocc]
  rw [← htw] at h1
  simp only [bucketOcc] at h1 h2 ⊢
  omega

@[simp] theorem State.halos_add_halo (st : State) (t : TreeId) (i : HaloId) :
    (st.add_halo t i).halos = st.halos := rfl

@[simp] theorem State.subhalos_add_halo (st : State) (t : TreeId) (i : HaloId) :
    (st.add_halo t i).subhalos = st.subhalos := rfl

theorem linkResult_merger (st0 : State) (ps ds : SubhaloId) (ph dh : HaloId) (t : TreeId)
    (j : HaloId) :
    ((linkResult st0 ps ds ph dh t).halo j).merger_tree =
      if j = ph then some t else (st0.halo j).merger_tree := by
  rw [linkResult]
  rw [apply_ite (fun (s : State) => ((s.halo j).merger_tree))]
  simp only [State.halo_add_halo, ite_self]
  by_cases hjp : j = ph
  · subst hjp
    simp
  · by_cases hjd : j = dh
    · subst hjd
      simp [hjp]
    · simp [hjp, hjd]

theorem linkResult_ascendants (st0 : State) (ps ds : SubhaloId) (ph dh : HaloId)
    (t : TreeId) (j : HaloId) :
    ((linkResult st0 ps ds ph dh t).halo j).ascendants =
      if j = dh then (insertUnique (st0.halo dh).ascendants ph).1
      else (st0.halo j).ascendants := by
  rw [linkResult]
  rw [apply_ite (fun (s : State) => ((s.halo j).ascendants))]
  simp only [State.halo_add_halo, ite_self]
  by_cases hjd : j = dh
  · subst hjd
    by_cases hdp : j = ph
    · subst hdp
      simp
    · have hpd : ¬ ph = j := fun h => hdp h.symm
      simp [hdp, hpd]
  · by_cases hjp : j = ph
    · subst hjp
      simp [hjd]
    · simp [hjp, hjd]

theorem linkResult_snapshot (st0 : State) (ps ds : SubhaloId) (ph dh : HaloId)
    (t : TreeId) (j : HaloId) :
    ((linkResult st0 ps ds ph dh t).halo j).snapshot = (st0.halo j).snapshot := by
  rw [linkResult]
  rw [apply_ite (fun (s : State) => ((s.halo j).snapshot))]
  simp only [State.halo_add_halo, ite_self]
  by_cases hjp : j = ph
  · subst hjp
    by_cases hjd : j = dh
    · subst hjd
      simp
    · simp [hjd]
  · by_cases hjd : j = dh
    · subst hjd
      simp [hjp]
    · simp [hjp, hjd]

theorem mem_keys_linkResult (st0 : State) (ps ds : SubhaloId) (ph dh : HaloId)
    (t : TreeId) (i : HaloId) :
    i ∈ (linkResult st0 ps ds ph dh t).halos.map Prod.fst ↔
      i ∈ st0.halos.map Prod.fst ∨ i = ph ∨ i = dh := by
  rw [linkResult]
  rw [apply_ite (fun (s : State) => s.halos)]
  simp only [State.halos_add_halo, ite_self]
  simp only [State.modifyHalo, State.setHalo, State.modifySub, State.setSub]
  rw [mem_keys_upsert, mem_keys_upsert, mem_keys_upsert]
  tauto

theorem modifyHalo_id {st : State} {i : HaloId} {f : Halo → Halo}
    (hv : lookupA st.halos i = some (st.halo i)) (hf : f (st.halo i) = st.halo i) :
    st.modifyHalo i f = st := by
  unfold State.modifyHalo State.setHalo
  rw [hf, upsert_self hv]

theorem TreeWF_congr {st st' : State} (hh : st'.halos = st.halos)
    (ht : st'.trees = st.trees) (h : TreeWF st) : TreeWF st' := by
  have hhalo : ∀ i, st'.halo i = st.halo i := by
    intro i
    unfold State.halo
    rw [hh]
  have hocc : ∀ x, st'.occ x = st.occ x := by
    intro x
    unfold State.occ
    rw [ht]
  unfold TreeWF at h ⊢
  rw [hh, ht]
  simp only [hhalo, hocc]
  exact h

theorem TreeWF_coh {st : State} (hWF : TreeWF st) :
    ∀ i d, (st.halo i).descendant = some d →
      (st.halo i).merger_tree = (st.halo d).merger_tree ∧
        ((st.halo d).merger_tree).isSome = true := by
  intro i d hd
  by_cases hmem : i ∈ st.halos.map Prod.fst
  · exact hWF.2.2.2.2 i hmem d hd
  · rw [halo_default_of_not_mem hmem] at hd
    simp at hd

theorem TreeWF_asc_desc {st : State} (hWF : TreeWF st) :
    ∀ i, ∀ a ∈ (st.halo i).ascendants, (st.halo a).descendant = some i := by
  intro i a ha
  by_cases hmem : i ∈ st.halos.map Prod.fst
  · exact hWF.2.2.1 i hmem a ha
  · rw [halo_default_of_not_mem hmem] at ha
    simp at ha

theorem TreeWF_desc_asc {st : State} (hWF : TreeWF st) :
    ∀ i d, (st.halo i).descendant = some d → i ∈ (st.halo d).ascendants := by
  intro i d hd
  by_cases hmem : i ∈ st.halos.map Prod.fst
  · exact hWF.2.2.2.1 i hmem d hd
  · rw [halo_default_of_not_mem hmem] at hd
    simp at hd

theorem TreeWF_tree_occ {st : State} (hWF : TreeWF st) :
    ∀ i, ((st.halo i).merger_tree).isSome = true → st.occ i = 1 := by
  intro i hm
  by_cases hmem : i ∈ st.halos.map Prod.fst
  · exact hWF.2.1 i hmem hm
  · rw [halo_default_of_not_mem hmem] at hm
    simp at hm

theorem bucketOcc_pos_mem {m : List (Int × List HaloId)} {x : HaloId}
    (h : 0 < bucketOcc m x) : ∃ q ∈ m, x ∈ q.2 := by
  induction m with
  | nil => simp [bucketOcc] at h
  | cons q rest ih =>
    rw [bucketOcc, List.map_cons, List.sum_cons] at h
    by_cases hq : 0 < q.2.count x
    · exact ⟨q, by simp, List.count_pos_iff.mp hq⟩
    · have hr : 0 < bucketOcc rest x := by
        rw [bucketOcc]
        omega
      obtain ⟨q', hq', hx⟩ := ih hr
      exact ⟨q', by simp [hq'], hx⟩

theorem sum_bucketOcc_pos_mem :
    ∀ {l : List (TreeId × List (Int × List HaloId))} {x : HaloId},
      0 < (l.map (fun p => bucketOcc p.2 x)).sum → ∃ p ∈ l, ∃ q ∈ p.2, x ∈ q.2 := by
  intro l x h
  induction l with
  | nil => simp at h
  | cons p rest ih =>
    rw [List.map_cons, List.sum_cons] at h
    by_cases hp : 0 < bucketOcc p.2 x
    · obtain ⟨q, hq, hx⟩ := bucketOcc_pos_mem hp
      exact ⟨p, by simp, q, hq, hx⟩
    · have hr : 0 < (rest.map (fun p => bucketOcc p.2 x)).sum := by omega
      obtain ⟨p', hp', hrest⟩ := ih hr
      exact ⟨p', by simp [hp'], hrest⟩

theorem occ_pos_mem {st : State} {x : HaloId} (h : 0 < st.occ x) :
    ∃ p ∈ st.trees, ∃ q ∈ p.2, x ∈ q.2 := by
  rw [State.occ] at h
  exact sum_bucketOcc_pos_mem h

theorem occ_zero_of_no_tree {st : State} {x : HaloId} (hWF : TreeWF st)
    (hm : (st.halo x).merger_tree = none) : st.occ x = 0 := by
  by_contra hc
  have hpos : 0 < st.occ x := Nat.pos_of_ne_zero hc
  obtain ⟨p, hp, q, hq, hx⟩ := occ_pos_mem hpos
  have := (hWF.1 p hp q hq x hx).1
  rw [hm] at this
  cases this

theorem linkResult_occ (st0 : State) (ps ds : SubhaloId) (ph dh : HaloId) (t : TreeId)
    (x : HaloId) :
    (linkResult st0 ps ds ph dh t).occ x =
      if (insertUnique (st0.halo dh).ascendants ph).2 then
        st0.occ x + (if x = ph then 1 else 0)
      else st0.occ x := by
  rw [linkResult]
  split
  · rw [occ_add_halo]
    rfl
  · rfl

/-- A successful link preserves the forest well-formedness invariant,
provided the parent halo is not an already-seeded root (a halo with a tree
but no descendant). -/
theorem linkResult_preserves_TreeWF (st0 : State) (ps ds : SubhaloId) (ph dh : HaloId)
    (t : TreeId) (hWF : TreeWF st0)
    (hnr : ((st0.halo ph).merger_tree).isSome = true →
      ((st0.halo ph).descendant).isSome = true)
    (h2 : (st0.halo ph).descendant = none ∨ (st0.halo ph).descendant = some dh)
    (h3 : (st0.halo dh).merger_tree = some t) :
    TreeWF (linkResult st0 ps ds ph dh t) := by
  have hdhne : st0.halo dh ≠ ({} : Halo) := by
    intro hc
    rw [hc] at h3
    exact Option.noConfusion h3
  have hvdh : lookupA st0.halos dh = some (st0.halo dh) := lookupA_halo_of_mem hdhne
  have hdhk : dh ∈ st0.halos.map Prod.fst := mem_keys_of_lookupA hvdh
  by_cases hAB : ((st0.halo ph).merger_tree).isSome = true
  · -- the parent halo already belongs to a tree: by the no-root hypothesis it
    -- has a descendant, which must be dh, and the whole link is a no-op on
    -- halos and trees.
    have hdsome := hnr hAB
    obtain ⟨d', hd'⟩ := Option.isSome_iff_exists.mp hdsome
    have hddh : (st0.halo ph).descendant = some dh := by
      rcases h2 with h | h
      · rw [h] at hd'; cases hd'
      · exact h
    have hphne : st0.halo ph ≠ ({} : Halo) := by
      intro hc
      rw [hc] at hddh
      exact Option.noConfusion hddh
    have hvph : lookupA st0.halos ph = some (st0.halo ph) := lookupA_halo_of_mem hphne
    have hphk : ph ∈ st0.halos.map Prod.fst := mem_keys_of_lookupA hvph
    have hcoh := hWF.2.2.2.2 ph hphk dh hddh
    have hmph : (st0.halo ph).merger_tree = some t := by rw [hcoh.1, h3]
    have hasc : ph ∈ (st0.halo dh).ascendants := hWF.2.2.2.1 ph hphk dh hddh
    have hins : insertUnique (st0.halo dh).ascendants ph
        = ((st0.halo dh).ascendants, false) := by
      rw [insertUnique, if_pos hasc]
    have hB : (((st0.modifySub ds fun s =>
          { s with ascendants := s.ascendants ++ [ps] }).modifySub ps
            fun s => { s with descendant := some ds }).modifyHalo dh fun H =>
          { H with ascendants := (insertUnique (st0.halo dh).ascendants ph).1 })
        = ((st0.modifySub ds fun s =>
          { s with ascendants := s.ascendants ++ [ps] }).modifySub ps
            fun s => { s with descendant := some ds }) := by
      apply modifyHalo_id
      · exact hvdh
      · rw [hins]
        rfl
    have hC : (((st0.modifySub ds fun s =>
          { s with ascendants := s.ascendants ++ [ps] }).modifySub ps
            fun s => { s with descendant := some ds }).modifyHalo ph fun H =>
          { H with descendant := some dh })
        = ((st0.modifySub ds fun s =>
          { s with ascendants := s.ascendants ++ [ps] }).modifySub ps
            fun s => { s with descendant := some ds }) := by
      apply modifyHalo_id
      · exact hvph
      · rw [← hddh]
        rfl
    have hD : (((st0.modifySub ds fun s =>
          { s with ascendants := s.ascendants ++ [ps] }).modifySub ps
            fun s => { s with descendant := some ds }).modifyHalo ph fun H =>
          { H with merger_tree := some t })
        = ((st0.modifySub ds fun s =>
          { s with ascendants := s.ascendants ++ [ps] }).modifySub ps
            fun s => { s with descendant := some ds }) := by
      apply modifyHalo_id
      · exact hvph
      · rw [← hmph]
        rfl
    have hres : linkResult st0 ps ds ph dh t
        = ((st0.modifySub ds fun s =>
          { s with ascendants := s.ascendants ++ [ps] }).modifySub ps
            fun s => { s with descendant := some ds }) := by
      rw [linkResult, hB, hC, hD, hins]
      rfl
    rw [hres]
    exact TreeWF_congr rfl rfl hWF
  · -- the parent halo is unassigned: it has no descendant, occurs in no
    -- bucket, has no incoming edges and is not yet an ascendant of dh.
    have hmpnone : (st0.halo ph).merger_tree = none := by
      cases hval : (st0.halo ph).merger_tree with
      | none => rfl
      | some x => rw [hval] at hAB; exact absurd rfl hAB
    have hdph : (st0.halo ph).descendant = none := by
      cases hval : (st0.halo ph).descendant with
      | none => rfl
      | some d =>
        obtain ⟨hc1, hc2⟩ := TreeWF_coh hWF ph d hval
        rw [hmpnone] at hc1
        rw [← hc1] at hc2
        simp at hc2
    have hoccph : st0.occ ph = 0 := occ_zero_of_no_tree hWF hmpnone
    have hnasc : ph ∉ (st0.halo dh).ascendants := by
      intro hc
      have hd := TreeWF_asc_desc hWF dh ph hc
      rw [hdph] at hd
      exact Option.noConfusion hd
    have hins2 : insertUnique (st0.halo dh).ascendants ph
        = ((st0.halo dh).ascendants ++ [ph], true) := by
      rw [insertUnique, if_neg hnasc]
    have hnoin : ∀ q, (st0.halo q).descendant ≠ some ph := by
      intro q hc
      obtain ⟨-, hc2⟩ := TreeWF_coh hWF q ph hc
      rw [hmpnone] at hc2
      simp at hc2
    have hphdh : ph ≠ dh := by
      intro hc
      rw [hc, h3] at hmpnone
      exact Option.noConfusion hmpnone
    have hdesc' := linkResult_descendant st0 ps ds ph dh t
    have hmerg' := linkResult_merger st0 ps ds ph dh t
    have hsnap' := linkResult_snapshot st0 ps ds ph dh t
    have hasc' : ∀ j, ((linkResult st0 ps ds ph dh t).halo j).ascendants =
        if j = dh then (st0.halo dh).ascendants ++ [ph] else (st0.halo j).ascendants := by
      intro j
      rw [linkResult_ascendants, hins2]
    have hocc' : ∀ x, (linkResult st0 ps ds ph dh t).occ x
        = st0.occ x + (if x = ph then 1 else 0) := by
      intro x
      rw [linkResult_occ, hins2]
      rfl
    have hkeys' := mem_keys_linkResult st0 ps ds ph dh t
    have htrees' : (linkResult st0 ps ds ph dh t).trees =
        upsert st0.trees t (upsert (st0.treeHalos t) (st0.halo ph).snapshot
          ((lookupA (st0.treeHalos t) (st0.halo ph).snapshot).getD [] ++ [ph])) := by
      rw [linkResult_trees, hins2]
      rfl
    refine ⟨?_, ?_, ?_, ?_, ?_⟩
    · -- every bucket halo references its tree, sits at the bucket snapshot
      -- and occurs exactly once
      intro p hp q hq h hh
      rw [htrees'] at hp
      have hold : ∀ (p₀ : TreeId × List (Int × List HaloId)), p₀ ∈ st0.trees →
          ∀ (q₀ : Int × List HaloId), q₀ ∈ p₀.2 → h ∈ q₀.2 →
          ((linkResult st0 ps ds ph dh t).halo h).merger_tree = some p₀.1 ∧
            ((linkResult st0 ps ds ph dh t).halo h).snapshot = q₀.1 ∧
            (linkResult st0 ps ds ph dh t).occ h = 1 := by
        intro p₀ hp₀ q₀ hq₀ hh₀
        obtain ⟨hm1, hm2, hm3⟩ := hWF.1 p₀ hp₀ q₀ hq₀ h hh₀
        have hhne : h ≠ ph := by
          intro hc
          rw [hc, hoccph] at hm3
          exact absurd hm3 (by decide)
        refine ⟨?_, ?_, ?_⟩
        · rw [hmerg' h, if_neg hhne]; exact hm1
        · rw [hsnap' h]; exact hm2
        · rw [hocc' h, if_neg hhne, hm3]
      rcases mem_upsert hp with hpOld | hpNew
      · exact hold p hpOld q hq hh
      · subst hpNew
        rcases mem_upsert hq with hqOld | hqNew
        · cases hm : lookupA st0.trees t with
          | none =>
            rw [State.treeHalos, hm] at hqOld
            simp at hqOld
          | some m₀ =>
            rw [State.treeHalos, hm] at hqOld
            simp only [Option.getD_some] at hqOld
            exact hold (t, m₀) (lookupA_mem hm) q hqOld hh
        · subst hqNew
          rcases List.mem_append.mp hh with hb | hph
          · cases hm : lookupA st0.trees t with
            | none =>
              rw [State.treeHalos, hm] at hb
              simp [lookupA] at hb
            | some m₀ =>
              rw [State.treeHalos, hm] at hb
              simp only [Option.getD_some] at hb
              cases hl : lookupA m₀ (st0.halo ph).snapshot with
              | none => rw [hl] at hb; simp at hb
              | some l₀ =>
                rw [hl] at hb
                simp only [Option.getD_some] at hb
                exact hold (t, m₀) (lookupA_mem hm)
                  ((st0.halo ph).snapshot, l₀) (lookupA_mem hl) hb
          · have hhp : h = ph := by simpa using hph
            subst hhp
            refine ⟨?_, ?_, ?_⟩
            · rw [hmerg' h, if_pos rfl]
            · rw [hsnap' h]
            · rw [hocc' h, if_pos rfl, hoccph]
    · -- halos with a tree reference occur exactly once
      intro i hik hm
      rw [hkeys'] at hik
      by_cases hip : i = ph
      · subst hip
        rw [hocc' i, if_pos rfl, hoccph]
      · rw [hmerg' i, if_neg hip] at hm
        rw [hocc' i, if_neg hip]
        have hik0 : i ∈ st0.halos.map Prod.fst := by
          rcases hik with h | h | h
          · exact h
          · exact absurd h hip
          · rw [h]; exact hdhk
        exact hWF.2.1 i hik0 hm
    · -- ascendant lists point back via descendant edges
      intro i _ a ha
      rw [hasc' i] at ha
      by_cases hid : i = dh
      · subst hid
        rw [if_pos rfl] at ha
        rcases List.mem_append.mp ha with haOld | haPh
        · have hd := TreeWF_asc_desc hWF i a haOld
          have hane : a ≠ ph := by
            intro hc
            rw [hc, hdph] at hd
            exact Option.noConfusion hd
          rw [hdesc' a, if_neg hane]
          exact hd
        · have hap : a = ph := by simpa using haPh
          subst hap
          rw [hdesc' a, if_pos rfl]
      · rw [if_neg hid] at ha
        have hd := TreeWF_asc_desc hWF i a ha
        have hane : a ≠ ph := by
          intro hc
          rw [hc, hdph] at hd
          exact Option.noConfusion hd
        rw [hdesc' a, if_neg hane]
        exact hd
    · -- descendant edges are recorded in the target's ascendant set
      intro i _ d' hd'
      rw [hdesc' i] at hd'
      by_cases hip : i = ph
      · subst hip
        rw [if_pos rfl] at hd'
        injection hd' with hdd
        subst hdd
        rw [hasc' dh, if_pos rfl]
        exact List.mem_append.mpr (Or.inr (by simp))
      · rw [if_neg hip] at hd'
        have hmem := TreeWF_desc_asc hWF i d' hd'
        rw [hasc' d']
        by_cases hdd : d' = dh
        · subst hdd
          rw [if_pos rfl]
          exact List.mem_append.mpr (Or.inl hmem)
        · rw [if_neg hdd]
          exact hmem
    · -- descendant edges stay within one assigned merger tree
      intro i _ d' hd'
      rw [hdesc' i] at hd'
      by_cases hip : i = ph
      · subst hip
        rw [if_pos rfl] at hd'
        injection hd' with hdd
        subst hdd
        have hdhp : ¬ dh = i := fun hc => hphdh hc.symm
        constructor
        · rw [hmerg' i, if_pos rfl, hmerg' dh, if_neg hdhp, h3]
        · rw [hmerg' dh, if_neg hdhp, h3]
          rfl
      · rw [if_neg hip] at hd'
        obtain ⟨hc1, hc2⟩ := TreeWF_coh hWF i d' hd'
        have hdne : d' ≠ ph := by
          intro hc
          rw [hc] at hd'
          exact hnoin i hd'
        constructor
        · rw [hmerg' i, if_neg hip, hmerg' d', if_neg hdne]
          exact hc1
        · rw [hmerg' d', if_neg hdne]
          exact hc2

/-- A bucket passes the self-containment scan exactly when every halo in it
references the tree being iterated. -/
theorem checkBucketContained_ok_iff (st : State) (t : TreeId) (l : List HaloId) :
    checkBucketContained st t l = .ok () ↔
      ∀ h ∈ l, (st.halo h).merger_tree = some t := by
  induction l with
  | nil => simp [checkBucketContained]
  | cons x l ih =>
    simp only [checkBucketContained]
    by_cases hx : (st.halo x).merger_tree = some t
    · rw [if_neg (fun hc => hc hx), ih]
      constructor
      · intro hall h hm
        rcases List.mem_cons.mp hm with h1 | h1
        · rw [h1]; exact hx
        · exact hall h h1
      · intro hall h hm
        exact hall h (List.mem_cons_of_mem x hm)
    · rw [if_pos hx]
      constructor
      · intro hc; cases hc
      · intro hall
        exact absurd (hall x (List.mem_cons_self x l)) hx

/-- The bucket scan either succeeds or stops with `invalid_data` naming the
not-part-of-tree condition. -/
theorem checkBucketContained_cases (st : State) (t : TreeId) (l : List HaloId) :
    checkBucketContained st t l = .ok () ∨
      checkBucketContained st t l = .error (.invalid_data .notPartOfTree) := by
  induction l with
  | nil => left; rfl
  | cons x l ih =>
    simp only [checkBucketContained]
    split
    · right; rfl
    · exact ih

/-- A tree passes the self-containment scan exactly when every halo of every
bucket references it. -/
theorem checkTreeContained_ok_iff (st : State) (t : TreeId)
    (m : List (Int × List HaloId)) :
    checkTreeContained st t m = .ok () ↔
      ∀ q ∈ m, ∀ h ∈ q.2, (st.halo h).merger_tree = some t := by
  induction m with
  | nil => simp [checkTreeContained]
  | cons q m ih =>
    cases hb : checkBucketContained st t q.2 with
    | error e =>
      have hunfold : checkTreeContained st t (q :: m) = .error e := by
        simp only [checkTreeContained, hb]
      rw [hunfold]
      constructor
      · intro hc; cases hc
      · intro hall
        have h1 := (checkBucketContained_ok_iff st t q.2).mpr
          (hall q (List.mem_cons_self q m))
        rw [hb] at h1
        cases h1
    | ok u =>
      cases u
      have hunfold : checkTreeContained st t (q :: m) = checkTreeContained st t m := by
        simp only [checkTreeContained, hb]
      rw [hunfold, ih]
      constructor
      · intro hall q' hq' h hh
        rcases List.mem_cons.mp hq' with h1 | h1
        · subst h1
          exact (checkBucketContained_ok_iff st t q'.2).mp hb h hh
        · exact hall q' h1 h hh
      · intro hall q' hq'
        exact hall q' (List.mem_cons_of_mem q hq')

theorem checkTreeContained_cases (st : State) (t : TreeId)
    (m : List (Int × List HaloId)) :
    checkTreeContained st t m = .ok () ∨
      checkTreeContained st t m = .error (.invalid_data .notPartOfTree) := by
  induction m with
  | nil => left; rfl
  | cons q m ih =>
    cases hb : checkBucketContained st t q.2 with
    | error e =>
      have hunfold : checkTreeContained st t (q :: m) = .error e := by
        simp only [checkTreeContained, hb]
      rcases checkBucketContained_cases st t q.2 with h | h
      · rw [h] at hb
        cases hb
      · rw [hb] at h
        injection h with h2
        right
        rw [hunfold, h2]
    | ok u =>
      cases u
      have hunfold : checkTreeContained st t (q :: m) = checkTreeContained st t m := by
        simp only [checkTreeContained, hb]
      rw [hunfold]
      exact ih

/-- The whole self-containment pass succeeds exactly when every halo of
every bucket of every visited tree references that tree. -/
theorem ensure_trees_ok_iff (st : State) (ts : List TreeId) :
    ensure_trees_are_self_contained st ts = .ok () ↔
      ∀ t ∈ ts, ∀ q ∈ st.treeHalos t, ∀ h ∈ q.2, (st.halo h).merger_tree = some t := by
  induction ts with
  | nil => simp [ensure_trees_are_self_contained]
  | cons t ts ih =>
    cases hb : checkTreeContained st t (st.treeHalos t) with
    | error e =>
      have hunfold : ensure_trees_are_self_contained st (t :: ts) = .error e := by
        simp only [ensure_trees_are_self_contained, hb]
      rw [hunfold]
      constructor
      · intro hc; cases hc
      · intro hall
        have h1 := (checkTreeContained_ok_iff st t (st.treeHalos t)).mpr
          (hall t (List.mem_cons_self t ts))
        rw [hb] at h1
        cases h1
    | ok u =>
      cases u
      have hunfold : ensure_trees_are_self_contained st (t :: ts) =
          ensure_trees_are_self_contained st ts := by
        simp only [ensure_trees_are_self_contained, hb]
      rw [hunfold, ih]
      constructor
      · intro hall t' ht' q hq h hh
        rcases List.mem_cons.mp ht' with h1 | h1
        · subst h1
          exact (checkTreeContained_ok_iff st t' (st.treeHalos t')).mp hb q hq h hh
        · exact hall t' h1 q hq h hh
      · intro hall t' ht'
        exact hall t' (List.mem_cons_of_mem t ht')

theorem ensure_trees_cases (st : State) (ts : List TreeId) :
    ensure_trees_are_self_contained st ts = .ok () ∨
      ensure_trees_are_self_contained st ts = .error (.invalid_data .notPartOfTree) := by
  induction ts with
  | nil => left; rfl
  | cons t ts ih =>
    cases hb : checkTreeContained st t (st.treeHalos t) with
    | error e =>
      have hunfold : ensure_trees_are_self_contained st (t :: ts) = .error e := by
        simp only [ensure_trees_are_self_contained, hb]
      rcases checkTreeContained_cases st t (st.treeHalos t) with h | h
      · rw [h] at hb
        cases hb
      · rw [hb] at h
        injection h with h2
        right
        rw [hunfold, h2]
    | ok u =>
      cases u
      have hunfold : ensure_trees_are_self_contained st (t :: ts) =
          ensure_trees_are_self_contained st ts := by
        simp only [ensure_trees_are_self_contained, hb]
      rw [hunfold]
      exact ih

/-- C5: in a well-formed forest (every bucket halo references its tree, sits
at the bucket's snapshot and occurs exactly once across all trees, with
ascendant/descendant edges consistent), every successful subhalo link
preserves the invariant, provided any halo already carrying a tree also
carries a descendant (no re-linking of seeded roots); link leaves the tree
buckets untouched exactly when the parent halo was already an ascendant of
the descendant halo (the halo-level insertion was not new); and the
self-containment check succeeds iff every halo of every bucket of every
checked tree references that tree, failing otherwise with `invalid_data`
naming the not-part-of-tree condition. -/
theorem c5_tree_membership_self_containment (st st' : State) (ps ds : SubhaloId)
    (ph dh : HaloId) (ts : List TreeId) (hWF : TreeWF st)
    (hnr : ((st.halo ph).merger_tree).isSome = true →
      ((st.halo ph).descendant).isSome = true) :
    (link st ps ds ph dh = .ok st' → TreeWF st') ∧
    (link st ps ds ph dh = .ok st' → ph ∈ (st.halo dh).ascendants →
      st'.trees = st.trees) ∧
    (ensure_trees_are_self_contained st ts = .ok () ↔
      ∀ t ∈ ts, ∀ q ∈ st.treeHalos t, ∀ h ∈ q.2, (st.halo h).merger_tree = some t) ∧
    (ensure_trees_are_self_contained st ts = .ok () ∨
      ensure_trees_are_self_contained st ts = .error (.invalid_data .notPartOfTree)) := by
  refine ⟨?_, ?_, ensure_trees_ok_iff st ts, ensure_trees_cases st ts⟩
  · intro hok
    obtain ⟨t, -, h2, h3, hres⟩ := link_ok_inv hok
    rw [hres]
    exact linkResult_preserves_TreeWF st ps ds ph dh t hWF hnr h2 h3
  · intro hok hmem
    obtain ⟨t, -, -, -, hres⟩ := link_ok_inv hok
    rw [hres, linkResult_trees, insertUnique, if_pos hmem]
    rfl

/-- C5 witness: the two-halo, one-tree state of the linking scenario; halo 1
at snapshot 0 links under tree 0 through halo 2, the invariant holds before
and after, and the self-containment check accepts the single tree. -/
theorem c5_witness :
    (link c5St 1 2 1 2 = .ok (linkResult c5St 1 2 1 2 0) →
      TreeWF (linkResult c5St 1 2 1 2 0)) ∧
    (link c5St 1 2 1 2 = .ok (linkResult c5St 1 2 1 2 0) →
      (1 : HaloId) ∈ (c5St.halo 2).ascendants →
      (linkResult c5St 1 2 1 2 0).trees = c5St.trees) ∧
    (ensure_trees_are_self_contained c5St [0] = .ok () ↔
      ∀ t ∈ [0], ∀ q ∈ c5St.treeHalos t, ∀ h ∈ q.2,
        (c5St.halo h).merger_tree = some t) ∧
    (ensure_trees_are_self_contained c5St [0] = .ok () ∨
      ensure_trees_are_self_contained c5St [0] =
        .error (.invalid_data .notPartOfTree)) :=
  c5_tree_membership_self_containment c5St (linkResult c5St 1 2 1 2 0) 1 2 1 2 [0]
    (by unfold TreeWF; decide) (by decide)

/-- C3 witness: a halo of mass 10 with one ascendant of mass 4 and baryon
fraction 1/2 accretes 3; a halo of mass 1 with an ascendant of mass 4
accretes 0 rather than a negative mass. -/
theorem c3_witness :
    (∃ st', accretionStep (1/2) c3St 1 = some st' ∧
      (st'.sub 1).accreted_mass = max 0 (((c3St.halo 1).Mvir - accretionSum c3St 1) * (1/2)) ∧
      0 ≤ (st'.sub 1).accreted_mass) ∧
    (∃ st', accretionStep (1/2) c3St 2 = some st' ∧
      (st'.sub 2).accreted_mass = max 0 (((c3St.halo 2).Mvir - accretionSum c3St 2) * (1/2)) ∧
      0 ≤ (st'.sub 2).accreted_mass) :=
  ⟨c3_accreted_mass_is_clamped_formula c3St (1/2) 1 1 (by decide),
   c3_accreted_mass_is_clamped_formula c3St (1/2) 2 2 (by decide)⟩

end Shark

